import Mathlib

/-!
# Verification development for the `t_eino` ReAct agent

A shallow embedding of the Go package `pkg/t_eino` (tool catalog, model
adapter, branch predicates and state pre-handlers) together with theorems
about it.

Conventions of the embedding.

* A Go `map[string]T` is a `GoMap T`: an association list with at most one
  entry per key.  Go leaves the iteration order of a map unspecified; the
  order of the association list stands for whichever order a `range` picks,
  and no theorem below depends on it (statements about the result of a
  `range` over a map are made up to membership or permutation).
* Go maps are reference values.  The catalog copies map references between
  its fields, so maps holding tools live in an explicit `Heap` and the
  fields hold `Ref`s (`none` for a nil map).
* A runtime panic (assignment to an entry of a nil map, index out of range)
  is the result `none` of an `Option`-valued operation.
* `context.Context` arguments carry no data that the modelled code reads and
  are left out.
-/

namespace TEino

/-! ## Errors, tools, Go maps -/

/-- Go error values the package creates or compares against. -/
inductive Error where
  /-- Stands for `io.EOF`. -/
  | EOF
  /-- Stands for `schema.ErrNoValue`. -/
  | ErrNoValue
  /-- Stands for an error made by `fmt.Errorf`, or any other error, by its text. -/
  | errorf (msg : String)
  deriving DecidableEq, Repr

deriving instance DecidableEq for Except

/-- The part of `schema.ToolInfo` that the package reads: the tool name.
The description and the parameter schema are never inspected. -/
structure ToolInfo where
  Name : String
  deriving DecidableEq, Repr

/-- The constant `SpecialGetToolToolName`. -/
def SpecialGetToolToolName : String := "special_get_tool"

/-- A `tool.BaseTool` interface value: either the reveal tool that
`getSpecialTool` builds, or a tool supplied by the caller, given by an object
identity and by what its `Info` method returns. -/
inductive BaseTool where
  | special
  | user (id : Nat) (info : Except Error ToolInfo)
  deriving DecidableEq, Repr

/-- The method `Info` of a tool.  `utils.InferTool` gives the reveal tool the
name `SpecialGetToolToolName`. -/
def BaseTool.Info : BaseTool → Except Error ToolInfo
  | .special => .ok { Name := SpecialGetToolToolName }
  | .user _ info => info

/-- A Go map with string keys. -/
structure GoMap (α : Type) where
  entries : List (String × α)
  deriving DecidableEq, Repr

namespace GoMap

variable {α : Type}

/-- The map made by `make(map[string]T)`; a nil map reads the same. -/
def empty : GoMap α := ⟨[]⟩

/-- Lookup in an association list. -/
def find : List (String × α) → String → Option α
  | [], _ => none
  | (k', v) :: m, k => if k' = k then some v else find m k

/-- The read `v, ok := m[k]`. -/
def get (m : GoMap α) (k : String) : Option α := find m.entries k

/-- Removal of every entry with key `k` from an association list. -/
def erase : List (String × α) → String → List (String × α)
  | [], _ => []
  | (k', v) :: m, k => if k' = k then erase m k else (k', v) :: erase m k

/-- The statement `delete(m, k)`. -/
def delete (m : GoMap α) (k : String) : GoMap α := ⟨erase m.entries k⟩

/-- The assignment `m[k] = v`. -/
def set (m : GoMap α) (k : String) (v : α) : GoMap α :=
  ⟨(m.delete k).entries ++ [(k, v)]⟩

/-- The keys of the map. -/
def keys (m : GoMap α) : List String := m.entries.map Prod.fst

/-- The values of the map, in iteration order. -/
def values (m : GoMap α) : List α := m.entries.map Prod.snd

end GoMap

/-- The function `utils.MapToSlice`: the values met by a `range` over the map. -/
def MapToSlice {α : Type} (m : GoMap α) : List α := m.values

/-- The loop of `toolsToMap`, with the map built so far. -/
def toolsToMapLoop : List BaseTool → GoMap BaseTool → Except Error (GoMap BaseTool)
  | [], m => .ok m
  | tool :: rest, m =>
    match tool.Info with
    | .error err => .error err
    | .ok info => toolsToMapLoop rest (m.set info.Name tool)

/-- The function `toolsToMap`. -/
def toolsToMap (tools : List BaseTool) : Except Error (GoMap BaseTool) :=
  toolsToMapLoop tools GoMap.empty

/-! ## The heap of tool maps and the catalog -/

/-- A reference to a map object. -/
abbrev Ref := Nat

/-- The map objects allocated so far: `cell r` is the content of the map at
`r`, and every `r < next` is allocated. -/
structure Heap where
  cell : Ref → GoMap BaseTool
  next : Ref

/-- The heap with no map allocated. -/
def Heap.init : Heap := ⟨fun _ => GoMap.empty, 0⟩

/-- Allocation of a new map object with the given content. -/
def Heap.alloc (h : Heap) (m : GoMap BaseTool) : Ref × Heap :=
  (h.next, ⟨fun r => if r = h.next then m else h.cell r, h.next + 1⟩)

/-- Replacement of the content of the map at `r` (a write through any
reference equal to `r`). -/
def Heap.write (h : Heap) (r : Ref) (m : GoMap BaseTool) : Heap :=
  ⟨fun r' => if r' = r then m else h.cell r', h.next⟩

/-- Read of key `k` through a possibly nil map reference. -/
def Heap.get (h : Heap) (r : Option Ref) (k : String) : Option BaseTool :=
  match r with
  | none => none
  | some r => (h.cell r).get k

/-- The struct `ToolList`, without its `chatModel` field (the model adapter is
threaded separately, see `LearnModel`). -/
structure ToolList where
  aliveTools : List BaseTool
  originalTools : Ref
  aliveToolsMap : Option Ref
  extraToolsMap : Option Ref
  deriving DecidableEq, Repr

/-- An `Option` value returned by `WithTools`: a closure that captures the
map `m` it computed. -/
structure AgentOption where
  m : Ref
  deriving DecidableEq, Repr

/-- The state in which the catalog operations run: the heap of maps, the
`ToolList` of the agent, and the `Option` values built so far by `WithTools`
(held by the caller). -/
structure World where
  heap : Heap
  toolList : ToolList
  options : List AgentOption

/-- The function `NewToolList`, on a fresh heap.  `getSpecialTool` does not
fail: `utils.InferTool` is applied to a fixed argument struct. -/
def NewToolList (originalTools : List BaseTool) : Except Error World :=
  match toolsToMap originalTools with
  | .error err => .error err
  | .ok tm =>
    let (r, h) := Heap.init.alloc tm
    let t : ToolList :=
      { aliveTools := [], originalTools := r, aliveToolsMap := none, extraToolsMap := none }
    .ok { heap := h.write t.originalTools ((h.cell t.originalTools).set SpecialGetToolToolName .special),
          toolList := t, options := [] }

/-- The method `ToolList.Init`.  The second assignment copies the map
reference, not the map. -/
def Init (w : World) : World :=
  { w with toolList :=
      { w.toolList with
        aliveTools := MapToSlice (w.heap.cell w.toolList.originalTools),
        aliveToolsMap := some w.toolList.originalTools } }

/-- The method `ToolList.SetExtraTools`. -/
def SetExtraTools (w : World) (tools : List BaseTool) : Option Error × World :=
  match toolsToMap tools with
  | .error err => (some err, w)
  | .ok tm =>
    let (r, h) := w.heap.alloc tm
    (none, { w with heap := h, toolList := { w.toolList with extraToolsMap := some r } })

/-- The method `ToolList.GetTools`. -/
def GetTools (w : World) : List BaseTool := w.toolList.aliveTools

/-- The method `ToolList.GetToolByName`.  The result is `none` when the
method panics, which happens when the name is found in the extra map while
`aliveToolsMap` is still nil. -/
def GetToolByName (w : World) (name : String) : Option ((Option BaseTool × Bool) × World) :=
  match w.heap.get w.toolList.aliveToolsMap name with
  | some tool => some ((some tool, true), w)
  | none =>
    match w.toolList.extraToolsMap with
    | none => some ((none, false), w)
    | some e =>
      match (w.heap.cell e).get name with
      | none => some ((none, false), w)
      | some tool =>
        let h1 := w.heap.write e ((w.heap.cell e).delete name)
        match w.toolList.aliveToolsMap with
        | none => none
        | some a =>
          let h2 := h1.write a ((h1.cell a).set name tool)
          some ((some tool, true),
            { w with heap := h2,
                     toolList := { w.toolList with aliveTools := w.toolList.aliveTools ++ [tool] } })

/-- The content of the map that `aliveToolsMap` refers to (the visible map);
a nil map has no entry. -/
def visibleMap (w : World) : GoMap BaseTool :=
  match w.toolList.aliveToolsMap with
  | none => GoMap.empty
  | some a => w.heap.cell a

/-- The content of the map that `extraToolsMap` refers to (the extra map);
a nil map has no entry. -/
def extraMap (w : World) : GoMap BaseTool :=
  match w.toolList.extraToolsMap with
  | none => GoMap.empty
  | some e => w.heap.cell e

/-- The content of the map that `originalTools` refers to. -/
def originalMap (w : World) : GoMap BaseTool := w.heap.cell w.toolList.originalTools

/-! ## Per-call options and the start of a run -/

/-- The loop `for _, tl := range tools { info, err := tl.Info(ctx); ...;
infos = append(infos, info) }` that `WithTools`, `genToolInfos` and the reveal
tool share, started on the slice `infos`.  A `none` entry is a nil pointer. -/
def appendInfos : List BaseTool → List (Option ToolInfo) → Except Error (List (Option ToolInfo))
  | [], infos => .ok infos
  | tl :: rest, infos =>
    match tl.Info with
    | .error err => .error err
    | .ok info => appendInfos rest (infos ++ [some info])

/-- The function `genToolInfos`, on the tool list of the config. -/
def genToolInfos (tools : List BaseTool) : Except Error (List (Option ToolInfo)) :=
  appendInfos tools []

/-- An `agent.AgentOption` as far as this package fills it: the zero value,
a chat-model option binding tool infos, or a tools-node option binding tools. -/
inductive Fragment where
  | zero
  | chatModelTools (infos : List (Option ToolInfo))
  | toolsNodeTools (tools : List BaseTool)
  deriving DecidableEq, Repr

/-- The function `WithTools` of `options.go`: computes the map `m` once and
returns the closure that captures it. -/
def WithTools (w : World) (tools : List BaseTool) : Except Error AgentOption × World :=
  match toolsToMap tools with
  | .error err => (.error err, w)
  | .ok tm =>
    let (r, h) := w.heap.alloc tm
    (.ok ⟨r⟩, { w with heap := h, options := w.options ++ [⟨r⟩] })

/-- The closure returned by `WithTools`, applied to the agent. -/
def AgentOption.apply (o : AgentOption) (w : World) : Except Error (List Fragment) × World :=
  let w1 : World := { w with toolList := { w.toolList with extraToolsMap := some o.m } }
  let tools := GetTools w1
  match appendInfos tools [] with
  | .error err => (.error err, w1)
  | .ok toolInfos => (.ok [.chatModelTools toolInfos, .toolsNodeTools tools], w1)

/-- The loop of `Agent.getAgentOption`, with the slice built so far. -/
def getAgentOptionLoop : List AgentOption → List Fragment → World →
    Except Error (List Fragment) × World
  | [], agentOpts, w => (.ok agentOpts, w)
  | o :: rest, agentOpts, w =>
    match o.apply w with
    | (.error err, w1) => (.error err, w1)
    | (.ok ao, w1) => getAgentOptionLoop rest (agentOpts ++ ao) w1

/-- The method `Agent.getAgentOption`. -/
def getAgentOption (w : World) (options : List AgentOption) :
    Except Error (List Fragment) × World :=
  getAgentOptionLoop options (List.replicate options.length .zero) w

/-- The statements of `Agent.Generate` and `Agent.Stream` that precede the
run of the graph: `r.toolList.Init()` and then `r.getAgentOption(opts...)`. -/
def startRun (w : World) (opts : List AgentOption) : Except Error (List Fragment) × World :=
  getAgentOption (Init w) opts

/-! ## The model adapter -/

/-- The method `WithTools` of the wrapped `model.ToolCallingChatModel`, which
is outside this package: from a model and a tool-info list, a new model or an
error. -/
structure ToolCallingChatModel (M : Type) where
  WithTools : M → List (Option ToolInfo) → Except Error M

/-- The struct `LearnModel`. -/
structure LearnModel (M : Type) where
  tChatModel : M
  originalChatModel : M

/-- The function `NewLearnModel`. -/
def NewLearnModel {M : Type} (llm : M) : LearnModel M :=
  { tChatModel := llm, originalChatModel := llm }

/-- What the interface value returned by `LearnModel.WithTools` refers to:
nil, or the receiver `l` itself. -/
inductive ReturnedModel where
  | nil
  | receiver
  deriving DecidableEq, Repr

/-- The method `LearnModel.WithTools`: the returned pair and the adapter
afterwards. -/
def LearnModel.WithTools {M : Type} (I : ToolCallingChatModel M) (l : LearnModel M)
    (tools : List (Option ToolInfo)) : (ReturnedModel × Option Error) × LearnModel M :=
  match I.WithTools l.originalChatModel tools with
  | .error err => ((.nil, some err), l)
  | .ok newModel => ((.receiver, none), { l with tChatModel := newModel })

/-- A sequence of `WithTools` calls on one adapter, the results dropped. -/
def LearnModel.WithToolsSeq {M : Type} (I : ToolCallingChatModel M) (l : LearnModel M) :
    List (List (Option ToolInfo)) → LearnModel M
  | [] => l
  | tools :: rest => LearnModel.WithToolsSeq I (LearnModel.WithTools I l tools).2 rest

/-! ## The reveal tool -/

/-- The function that `getSpecialTool` hands to `utils.InferTool`, run on the
argument `input.Name = name`, with the `LearnModel` that `GetReactGraph` passes
to `NewToolList` as `t.chatModel`.  The result is `none` when `GetToolByName`
panics. -/
def specialToolInvoke {M : Type} (I : ToolCallingChatModel M) (w : World) (l : LearnModel M)
    (name : String) : Option (Except Error String × World × LearnModel M) :=
  match GetToolByName w name with
  | none => none
  | some ((_, false), w1) => some (.error (.errorf ("tool " ++ name ++ " is not exist")), w1, l)
  | some ((_, true), w1) =>
    let tools := GetTools w1
    match appendInfos tools (List.replicate tools.length none) with
    | .error err => some (.error err, w1, l)
    | .ok infos =>
      match LearnModel.WithTools I l infos with
      | ((_, some err), l1) => some (.error err, w1, l1)
      | ((_, none), l1) => some (.ok ("get tool " ++ name ++ " success"), w1, l1)

/-! ## Sequences of catalog operations -/

/-- The operations a caller and the tools node perform on the catalog. -/
inductive Op where
  | Init
  | SetExtraTools (tools : List BaseTool)
  | WithTools (tools : List BaseTool)
  | applyOption (i : Nat)
  | GetToolByName (name : String)
  deriving DecidableEq, Repr

/-- One operation; `applyOption i` applies the `i`-th `Option` built so far
(and does nothing when there is none).  The result is `none` on a panic. -/
def step (w : World) : Op → Option World
  | .Init => some (Init w)
  | .SetExtraTools tools => some (SetExtraTools w tools).2
  | .WithTools tools => some (WithTools w tools).2
  | .applyOption i =>
    match w.options[i]? with
    | none => some w
    | some o => some (o.apply w).2
  | .GetToolByName name => (GetToolByName w name).map Prod.snd

/-- A sequence of operations, stopped by the first panic. -/
def run : World → List Op → Option World
  | w, [] => some w
  | w, op :: ops =>
    match step w op with
    | none => none
    | some w1 => run w1 ops

/-- The catalog states that arise from `NewToolList` by a sequence of
operations. -/
def Reachable (w : World) : Prop :=
  ∃ tools w0 ops, NewToolList tools = .ok w0 ∧ run w0 ops = some w

/-- Aliasing facts that hold in every reachable catalog state: the original
map is allocated, the visible map is nil or is the very map object
`originalTools`, and the extra map and the maps captured by options are
allocated objects other than `originalTools`. -/
structure WellFormed (w : World) : Prop where
  orig_lt : w.toolList.originalTools < w.heap.next
  alive : w.toolList.aliveToolsMap = none ∨
    w.toolList.aliveToolsMap = some w.toolList.originalTools
  extra : ∀ e, w.toolList.extraToolsMap = some e →
    e < w.heap.next ∧ e ≠ w.toolList.originalTools
  opts : ∀ o ∈ w.options, o.m < w.heap.next ∧ o.m ≠ w.toolList.originalTools

/-- No key of the map `m` is a key of the original map of `w`. -/
def namesFresh (w : World) (m : GoMap BaseTool) : Bool :=
  m.keys.all (fun k => ((originalMap w).get k).isNone)

/-- An operation that installs an extra map installs one whose names are
not keys of the original map at that moment; other operations are free. -/
def Op.installsFresh (w : World) : Op → Bool
  | .SetExtraTools tools =>
    match toolsToMap tools with
    | .ok tm => namesFresh w tm
    | .error _ => true
  | .applyOption i =>
    match w.options[i]? with
    | some o => namesFresh w (w.heap.cell o.m)
    | none => true
  | _ => true

/-- Every install of a sequence of operations is fresh in the state where
it happens. -/
def freshRun : World → List Op → Bool
  | _, [] => true
  | w, op :: ops =>
    op.installsFresh w &&
      match step w op with
      | none => true
      | some w1 => freshRun w1 ops

/-- A world to fall back on where a definition below unwraps a result. -/
def World.blank : World :=
  ⟨Heap.init, { aliveTools := [], originalTools := 0, aliveToolsMap := none,
                extraToolsMap := none }, []⟩

/-- A caller tool named `x`. -/
def toolX : BaseTool := .user 1 (.ok ⟨"x"⟩)

/-- The two tools of `demo/react.go`, both named `tool`. -/
def exmapleTool : BaseTool := .user 10 (.ok ⟨"tool"⟩)

/-- The second tool of `demo/react.go`. -/
def exmaple2Tool : BaseTool := .user 11 (.ok ⟨"tool"⟩)

/-- The catalog of an agent configured with no tool. -/
def emptyCatalog : World :=
  match NewToolList [] with
  | .ok w => w
  | .error _ => World.blank

/-- The catalog of an agent configured with no tool, after `Init` and the
installation of `toolX` as the one extra tool. -/
def catalogWithExtraX : World :=
  match run emptyCatalog [.Init, .SetExtraTools [toolX]] with
  | some w => w
  | none => World.blank

/-- A wrapped model that is the tool-info list it was last bound to; binding
always succeeds.  It records the argument of the `WithTools` call. -/
def recordingModel : ToolCallingChatModel (List (Option ToolInfo)) :=
  ⟨fun _ tools => .ok tools⟩

/-- No key of the extra map is a key of the original map. -/
def ExtraDisjoint (w : World) : Prop :=
  ∀ k, (extraMap w).get k ≠ none → (originalMap w).get k = none

/-- The catalog configured with no tool after a run that installs `x` by an
option and reveals it, and a second run that installs `tool`. -/
def freshDemo : World :=
  match run emptyCatalog [.Init, .WithTools [toolX], .applyOption 0, .GetToolByName "x",
      .SetExtraTools [exmapleTool], .Init] with
  | some w => w
  | none => World.blank

/-! ## Messages, streams and the turn state -/

/-- The struct `schema.FunctionCall`. -/
structure FunctionCall where
  Name : String
  Arguments : String
  deriving DecidableEq, Repr

/-- The struct `schema.ToolCall`, with the fields the package reads. -/
structure ToolCall where
  ID : String
  Function : FunctionCall
  deriving DecidableEq, Repr

/-- The struct `schema.Message`, with the fields the package reads and the
content. -/
structure Message where
  Role : String
  Content : String
  ToolCalls : List ToolCall
  ToolCallID : String
  deriving DecidableEq, Repr

/-- A `*schema.Message`; `none` is the nil pointer. -/
abbrev MessagePtr := Option Message

/-- What one `Recv` on the model output delivers before the end of the
stream: a message chunk or an error. -/
inductive Event where
  | chunk (msg : Message)
  | error (err : Error)
  deriving DecidableEq, Repr

/-- A `*schema.StreamReader[*schema.Message]`: the events not yet received
and whether `Close` has been called. -/
structure StreamReader where
  events : List Event
  closed : Bool
  deriving DecidableEq, Repr

/-- The method `Recv`: the next event, or `io.EOF` when none is left. -/
def StreamReader.Recv (sr : StreamReader) : (MessagePtr × Option Error) × StreamReader :=
  match sr.events with
  | [] => ((none, some .EOF), sr)
  | .chunk msg :: rest => ((some msg, none), { sr with events := rest })
  | .error err :: rest => ((none, some err), { sr with events := rest })

/-- The method `Close`. -/
def StreamReader.Close (sr : StreamReader) : StreamReader := { sr with closed := true }

/-- The `for` loop of `checkChunkStreamToolCallChecker` on the events still
to be received: the returned pair and the events left unread. -/
def checkChunkLoop : List Event → (Bool × Option Error) × List Event
  | [] => ((false, none), [])
  | .error err :: rest =>
    if err = .EOF then ((false, none), rest) else ((false, some err), rest)
  | .chunk msg :: rest =>
    if msg.ToolCalls.length > 0 then ((true, none), rest) else checkChunkLoop rest

/-- The function `checkChunkStreamToolCallChecker`: the loop, then the
deferred `sr.Close()`. -/
def checkChunkStreamToolCallChecker (sr : StreamReader) : (Bool × Option Error) × StreamReader :=
  let r := checkChunkLoop sr.events
  (r.1, StreamReader.Close { sr with events := r.2 })

/-- A chunk that carries no tool call: the loop reads on after it. -/
def Event.quiet : Event → Bool
  | .chunk msg => msg.ToolCalls.isEmpty
  | .error _ => false

/-- An error event. -/
def Event.isError : Event → Bool
  | .chunk _ => false
  | .error _ => true

/-- The struct `state` without its lock.  A nil `toolCallIDMap` is `none`. -/
structure State where
  Messages : List MessagePtr
  ReturnDirectlyToolCallID : String
  toolCallIDMap : Option (GoMap String)
  deriving DecidableEq, Repr

/-- The loop of `getReturnDirectlyToolCallID` over the tool calls. -/
def returnDirectlyLoop (toolReturnDirectly : GoMap Unit) : List ToolCall → String
  | [] => ""
  | toolCall :: rest =>
    match toolReturnDirectly.get toolCall.Function.Name with
    | some _ => toolCall.ID
    | none => returnDirectlyLoop toolReturnDirectly rest

/-- The function `getReturnDirectlyToolCallID`; the set `map[string]struct{}`
is a map to `Unit`. -/
def getReturnDirectlyToolCallID (input : Message) (toolReturnDirectly : GoMap Unit) : String :=
  if toolReturnDirectly.keys.length = 0 then ""
  else returnDirectlyLoop toolReturnDirectly input.ToolCalls

/-- The loop of `toolsNodePreHandle` that records the tool calls. -/
def recordToolCalls : List ToolCall → GoMap String → GoMap String
  | [], m => m
  | toolCall :: rest, m => recordToolCalls rest (m.set toolCall.ID toolCall.Function.Name)

/-- The closure `toolsNodePreHandle` of `GetReactGraph`, for the configured
`ToolReturnDirectly`: the returned pair and the state afterwards.  The result
is `none` when the nil-input branch indexes an empty history. -/
def toolsNodePreHandle (toolReturnDirectly : GoMap Unit) (input : MessagePtr) (state : State) :
    Option ((MessagePtr × Option Error) × State) :=
  match input with
  | none =>
    match state.Messages.getLast? with
    | none => none
    | some last => some ((last, none), state)
  | some msg =>
    let m0 : GoMap String :=
      match state.toolCallIDMap with
      | none => GoMap.empty
      | some m => m
    some ((some msg, none),
      { Messages := state.Messages ++ [some msg],
        ReturnDirectlyToolCallID := getReturnDirectlyToolCallID msg toolReturnDirectly,
        toolCallIDMap := some (recordToolCalls msg.ToolCalls m0) })

/-- The read `s.toolCallIDMap[k]` of the state, as in `getToolName`. -/
def State.toolName (s : State) (k : String) : Option String :=
  match s.toolCallIDMap with
  | none => none
  | some m => m.get k

/-- The loop of the conversion function of `directReturn`. -/
def directReturnFind (returnDirectlyToolCallID : String) : List MessagePtr → MessagePtr
  | [] => none
  | none :: rest => directReturnFind returnDirectlyToolCallID rest
  | some m :: rest =>
    if m.ToolCallID = returnDirectlyToolCallID then some m
    else directReturnFind returnDirectlyToolCallID rest

/-- The conversion function that `directReturn` hands to
`schema.StreamReaderWithConvert`, on one list of tool results: only the
closure, the reader that applies it is `DirectReturnReader`.
`compose.ProcessState` runs the handler on the state of the run and returns
the error of the handler, here always nil. -/
def directReturnConvert (state : State) (msgs : List MessagePtr) : MessagePtr × Option Error :=
  match directReturnFind state.ReturnDirectlyToolCallID msgs with
  | none => (none, some .ErrNoValue)
  | some msg => (some msg, none)

/-- What one `Recv` on the output of the tools node delivers before the end
of the stream: a list of tool results or an error. -/
inductive ResultEvent where
  | chunk (msgs : List MessagePtr)
  | error (err : Error)
  deriving DecidableEq, Repr

/-- The method `Recv` of the reader that `schema.StreamReaderWithConvert`
of the eino library returns, on the upstream events still to be received: the
returned pair and the upstream events left.  It receives from upstream and
returns an upstream error as it is (the end of the stream is `io.EOF`);
otherwise it applies `convert` and returns the value when the error is nil,
goes on to the next upstream element when the error is `schema.ErrNoValue`
(the way the library lets a conversion skip an element), and returns any
other error.  `zero` is the zero value of the element type. -/
def convertRecv {β : Type} (convert : List MessagePtr → β × Option Error) (zero : β) :
    List ResultEvent → (β × Option Error) × List ResultEvent
  | [] => ((zero, some .EOF), [])
  | .error err :: rest => ((zero, some err), rest)
  | .chunk out :: rest =>
    match convert out with
    | (t, none) => ((t, none), rest)
    | (t, some err) =>
      if err = .ErrNoValue then convertRecv convert zero rest
      else ((t, some err), rest)

/-- The reader that the lambda `directReturn` returns:
`schema.StreamReaderWithConvert(msgs, convert)` over the output of the tools
node. -/
structure DirectReturnReader where
  upstream : List ResultEvent
  deriving DecidableEq, Repr

/-- The lambda `directReturn` of `buildReturnDirectly`: it wraps the stream
of tool results and returns no error. -/
def directReturn (msgs : List ResultEvent) : DirectReturnReader × Option Error :=
  (⟨msgs⟩, none)

/-- The method `Recv` on the reader of `directReturn`, with the state that
`compose.ProcessState` hands to the conversion function at that moment. -/
def DirectReturnReader.Recv (state : State) (r : DirectReturnReader) :
    (MessagePtr × Option Error) × DirectReturnReader :=
  let out := convertRecv (directReturnConvert state) none r.upstream
  (out.1, ⟨out.2⟩)

/-- A `MessageModifier` function value: from the content of the slice it is
given, the slice it returns (`result`) and the content it leaves in the slots
of the slice it was given (`leaves`); a modifier may overwrite these slots. -/
structure MessageModifier where
  result : List MessagePtr → List MessagePtr
  leaves : List MessagePtr → List MessagePtr

/-- The fields of `AgentConfig` that the pre-handlers read; `none` is a nil
function value. -/
structure AgentConfig where
  MessageModifier : Option TEino.MessageModifier
  MessageRewriter : Option TEino.MessageModifier
  ToolReturnDirectly : GoMap Unit

/-- The outcome of `modelPreHandle`: the returned pair, the state afterwards,
and the final content of the local slice `modifiedInput` (`none` when the
slice was not made). -/
structure ModelPreHandleResult where
  output : List MessagePtr
  err : Option Error
  state : State
  modifiedInput : Option (List MessagePtr)

/-- The closure `modelPreHandle` of `GetReactGraph`.  `make` and `copy` give
`modifiedInput` slots of its own, so what the modifier writes into the slice it
is given lands in `modifiedInput` and not in `state.Messages`. -/
def modelPreHandle (config : AgentConfig) (input : List MessagePtr) (state : State) :
    ModelPreHandleResult :=
  let state1 : State := { state with Messages := state.Messages ++ input }
  let state2 : State :=
    match config.MessageRewriter with
    | none => state1
    | some rewriter => { state1 with Messages := rewriter.result state1.Messages }
  match config.MessageModifier with
  | none => { output := state2.Messages, err := none, state := state2, modifiedInput := none }
  | some messageModifier =>
    let modifiedInput : List MessagePtr := state2.Messages
    { output := messageModifier.result modifiedInput, err := none, state := state2,
      modifiedInput := some (messageModifier.leaves modifiedInput) }

/-- The function a configured or absent rewriter or modifier computes: the
identity when it is not configured. -/
def MessageModifier.orId : Option MessageModifier → List MessagePtr → List MessagePtr
  | none => id
  | some f => f.result

/-- A wrapped model that is the tool-info list it was last bound to and that
refuses a list with a nil entry. -/
def strictModel : ToolCallingChatModel (List (Option ToolInfo)) :=
  ⟨fun _ tools =>
    if tools.all Option.isSome then .ok tools else .error (.errorf "nil tool info")⟩

/-- A model output of three chunks, the second of which carries a tool call,
followed by an error. -/
def demoEvents : List Event :=
  [.chunk ⟨"assistant", "let me", [], ""⟩,
   .chunk ⟨"assistant", "", [⟨"call_1", ⟨"search", ""⟩⟩], ""⟩,
   .chunk ⟨"assistant", "tail", [], ""⟩,
   .error (.errorf "connection reset")]

/-- What the loop returns when `d` is the first event that is not a quiet
chunk (and not `io.EOF`), with `post` the events after it. -/
def Event.verdict (d : Event) (post : List Event) : (Bool × Option Error) × List Event :=
  match d with
  | .chunk _ => ((true, none), post)
  | .error err => ((false, some err), post)

/-- A turn state whose map already holds the tool-call id `call_1`. -/
def stateWithCall : State :=
  { Messages := [some ⟨"user", "weather?", [], ""⟩],
    ReturnDirectlyToolCallID := "",
    toolCallIDMap := some ⟨[("call_1", "search")]⟩ }

/-- A model message whose tool call reuses the id `call_1` for another tool. -/
def reusedIdMessage : Message :=
  ⟨"assistant", "", [⟨"call_1", ⟨"weather", ""⟩⟩], ""⟩

/-- A model message with three tool calls, two of which share an id. -/
def threeCallMessage : Message :=
  ⟨"assistant", "", [⟨"a", ⟨"search", ""⟩⟩, ⟨"b", ⟨"final", ""⟩⟩, ⟨"a", ⟨"final", ""⟩⟩], ""⟩

/-- A `ToolReturnDirectly` set that holds the one name `final`. -/
def returnFinal : GoMap Unit := ⟨[("final", ())]⟩

/-- A list of tool results with a nil entry. -/
def demoResults : List MessagePtr :=
  [none, some ⟨"tool", "r1", [], "a"⟩, some ⟨"tool", "r2", [], "b"⟩,
   some ⟨"tool", "r3", [], "b"⟩]

/-- A modifier that returns a system preamble followed by its input and
that overwrites every slot of the slice it was given with nil. -/
def preambleModifier : MessageModifier :=
  { result := fun input => some ⟨"system", "be brief", [], ""⟩ :: input,
    leaves := fun input => input.map (fun _ => none) }

/-- A rewriter that keeps the last two messages of the history. -/
def keepLastTwo : MessageModifier :=
  { result := fun input => input.drop (input.length - 2),
    leaves := fun input => input }

/-- A turn state with a history of two messages. -/
def twoMessageState : State :=
  { Messages := [some ⟨"user", "q1", [], ""⟩, some ⟨"assistant", "a1", [], ""⟩],
    ReturnDirectlyToolCallID := "",
    toolCallIDMap := none }

/-- The error the reveal tool makes for a name it does not find, the value
of `fmt.Errorf("tool %s is not exist", input.Name)`. -/
def notExistError (name : String) : Error := .errorf ("tool " ++ name ++ " is not exist")

/-- The method `Info` of the tool succeeds. -/
def BaseTool.infoOk (t : BaseTool) : Prop := ∃ info, t.Info = .ok info

/-- Every tool held by a map object or by the visible sequence is one whose
`Info` succeeds: tools enter the catalog only through `toolsToMap`, which
returns an error when an `Info` fails. -/
def InfoOk (w : World) : Prop :=
  (∀ r, ∀ p ∈ (w.heap.cell r).entries, p.2.infoOk) ∧
  ∀ t ∈ w.toolList.aliveTools, t.infoOk

/-! ## Error values and `NormalStop` -/

/-- A Go error value as `errors.Is` and `errors.As` see it: a value made by
`errors.New` (one distinct value per call, told apart by `id`), or a value that
wraps another one (as `fmt.Errorf` with `%w` makes). -/
inductive GoError where
  | new (id : Nat) (text : String)
  | wrap (text : String) (inner : GoError)
  deriving DecidableEq, Repr

/-- The package-level variables `io.EOF` and `StopRunErr`, both of type
`error`. -/
structure ErrVars where
  EOF : GoError
  StopRunErr : GoError
  deriving DecidableEq, Repr

/-- The variables as the program starts: `errors.New("EOF")` and
`errors.New("stop run")`. -/
def ErrVars.init : ErrVars := ⟨.new 0 "EOF", .new 1 "stop run"⟩

/-- The call `errors.As(err, target)` of the Go standard library for a
`target` of type `*error`, as in `errors.As(err, &io.EOF)`: the result and the
value of `*target` afterwards.  `As` returns false for a nil `err`; otherwise
it walks the chain of `err` and stops at the first error whose concrete value
is assignable to the type `*target` points to, stores it through `target` and
returns true.  Every error value is assignable to the interface type `error`,
so the first error of the chain, `err` itself, is stored. -/
def errorsAs (err : Option GoError) (target : GoError) : Bool × GoError :=
  match err with
  | none => (false, target)
  | some e => (true, e)

/-- The function `NormalStop`: the result and the package-level variables
afterwards.  The second `errors.As` runs only when the first returns false. -/
def NormalStop (vars : ErrVars) (err : Option GoError) : Bool × ErrVars :=
  let r1 := errorsAs err vars.EOF
  let vars1 : ErrVars := { vars with EOF := r1.2 }
  if r1.1 then (true, vars1)
  else
    let r2 := errorsAs err vars1.StopRunErr
    (r2.1, { vars1 with StopRunErr := r2.2 })

/-- The error `e` is `target` or wraps it, what `errors.Is(e, target)`
reports for these values. -/
def GoError.isOrWraps : GoError → GoError → Bool
  | .new id text, target => decide (GoError.new id text = target)
  | .wrap text inner, target =>
    decide (GoError.wrap text inner = target) || GoError.isOrWraps inner target

/-- An error made by `errors.New("boom")`, unrelated to the stop signals. -/
def boomError : GoError := .new 7 "boom"

/-- A turn state whose stored `ReturnDirectlyToolCallID` is `b`. -/
def stateReturnB : State := { stateWithCall with ReturnDirectlyToolCallID := "b" }

/-- A list of tool results, one of them nil, none of which answers `b`. -/
def unmatchedResults : List MessagePtr := [none, some ⟨"tool", "r1", [], "a"⟩]

/-! # Theorems -/

/-! ## Facts about Go maps -/

namespace GoMap

variable {α : Type}

theorem find_append (l1 l2 : List (String × α)) (k : String) :
    find (l1 ++ l2) k = match find l1 k with
      | some v => some v
      | none => find l2 k := by
  induction l1 with
  | nil => simp [find]
  | cons p l1 ih =>
    obtain ⟨k1, v1⟩ := p
    by_cases h : k1 = k
    · simp [find, h]
    · simp [find, h, ih]

theorem find_erase_same (l : List (String × α)) (k : String) :
    find (erase l k) k = none := by
  induction l with
  | nil => simp [find, erase]
  | cons p l ih =>
    obtain ⟨k1, v1⟩ := p
    by_cases h : k1 = k
    · simp [erase, h, ih]
    · simp [erase, h, find, ih]

theorem find_erase_ne (l : List (String × α)) {k k1 : String} (hk : k1 ≠ k) :
    find (erase l k) k1 = find l k1 := by
  induction l with
  | nil => simp [find, erase]
  | cons p l ih =>
    obtain ⟨k2, v2⟩ := p
    by_cases h : k2 = k
    · have h2 : ¬ k = k1 := fun e => hk e.symm
      simp [erase, h, find, h2, ih]
    · by_cases h3 : k2 = k1
      · subst h3
        simp [erase, h, find]
      · simp [erase, h, find, h3, ih]

theorem get_empty (k : String) : (empty : GoMap α).get k = none := rfl

theorem get_delete_same (m : GoMap α) (k : String) : (m.delete k).get k = none :=
  find_erase_same m.entries k

theorem get_delete_ne (m : GoMap α) {k k1 : String} (hk : k1 ≠ k) :
    (m.delete k).get k1 = m.get k1 :=
  find_erase_ne m.entries hk

theorem get_set_same (m : GoMap α) (k : String) (v : α) : (m.set k v).get k = some v := by
  simp [set, get, find_append, find, delete, find_erase_same]

theorem get_set_ne (m : GoMap α) {k k1 : String} (v : α) (hk : k1 ≠ k) :
    (m.set k v).get k1 = m.get k1 := by
  have h2 : ¬ k = k1 := fun e => hk e.symm
  simp only [set, get, find_append, delete, find_erase_ne m.entries hk]
  cases find m.entries k1 <;> simp [find, h2]

theorem mem_keys_iff (m : GoMap α) (k : String) : k ∈ m.keys ↔ m.get k ≠ none := by
  obtain ⟨l⟩ := m
  simp only [keys, get]
  induction l with
  | nil => simp [find]
  | cons p l ih =>
    obtain ⟨k1, v1⟩ := p
    by_cases h : k1 = k
    · simp [find, h]
    · have h2 : ¬ k = k1 := fun e => h e.symm
      simp [find, h, h2] at ih ⊢
      exact ih

end GoMap

/-! ## Aliasing in reachable catalog states -/

theorem toolsToMap_cases (tools : List BaseTool) :
    (∃ err, toolsToMap tools = .error err) ∨ (∃ tm, toolsToMap tools = .ok tm) := by
  cases h : toolsToMap tools with
  | error err => exact Or.inl ⟨err, rfl⟩
  | ok tm => exact Or.inr ⟨tm, rfl⟩

theorem wellFormed_NewToolList {tools : List BaseTool} {w0 : World}
    (h : NewToolList tools = .ok w0) : WellFormed w0 := by
  unfold NewToolList at h
  rcases toolsToMap_cases tools with ⟨err, he⟩ | ⟨tm, he⟩
  · simp [he] at h
  · simp [he, Heap.alloc, Heap.init, Heap.write] at h
    subst h
    constructor <;> simp

theorem wellFormed_Init {w : World} (h : WellFormed w) : WellFormed (Init w) :=
  ⟨h.orig_lt, Or.inr rfl, h.extra, h.opts⟩

theorem wellFormed_SetExtraTools {w : World} (h : WellFormed w) (tools : List BaseTool) :
    WellFormed (SetExtraTools w tools).2 := by
  unfold SetExtraTools
  rcases toolsToMap_cases tools with ⟨err, he⟩ | ⟨tm, he⟩
  · simpa [he] using h
  · simp only [he, Heap.alloc]
    refine ⟨Nat.lt_succ_of_lt h.orig_lt, h.alive, ?_, ?_⟩
    · intro e hx
      simp only [Option.some.injEq] at hx
      subst hx
      exact ⟨Nat.lt_succ_self _, Nat.ne_of_gt h.orig_lt⟩
    · intro o ho
      exact ⟨Nat.lt_succ_of_lt (h.opts o ho).1, (h.opts o ho).2⟩

theorem wellFormed_WithTools {w : World} (h : WellFormed w) (tools : List BaseTool) :
    WellFormed (WithTools w tools).2 := by
  unfold WithTools
  rcases toolsToMap_cases tools with ⟨err, he⟩ | ⟨tm, he⟩
  · simpa [he] using h
  · simp only [he, Heap.alloc]
    refine ⟨Nat.lt_succ_of_lt h.orig_lt, h.alive, ?_, ?_⟩
    · intro e hx
      exact ⟨Nat.lt_succ_of_lt (h.extra e hx).1, (h.extra e hx).2⟩
    · intro o ho
      rcases List.mem_append.mp ho with ho | ho
      · exact ⟨Nat.lt_succ_of_lt (h.opts o ho).1, (h.opts o ho).2⟩
      · simp only [List.mem_singleton] at ho
        subst ho
        exact ⟨Nat.lt_succ_self _, Nat.ne_of_gt h.orig_lt⟩

theorem apply_world (o : AgentOption) (w : World) :
    (o.apply w).2 = { w with toolList := { w.toolList with extraToolsMap := some o.m } } := by
  unfold AgentOption.apply
  simp only []
  split <;> rfl

theorem wellFormed_apply {w : World} (h : WellFormed w) {o : AgentOption}
    (ho : o ∈ w.options) : WellFormed (o.apply w).2 := by
  rw [apply_world]
  refine ⟨h.orig_lt, h.alive, ?_, h.opts⟩
  intro e hx
  simp only [Option.some.injEq] at hx
  subst hx
  exact h.opts o ho

theorem heap_get_alive (w : World) (n : String) :
    w.heap.get w.toolList.aliveToolsMap n = (visibleMap w).get n := by
  unfold Heap.get visibleMap
  cases w.toolList.aliveToolsMap <;> rfl

theorem GetToolByName_visible {w : World} {n : String} {tool : BaseTool}
    (h : (visibleMap w).get n = some tool) :
    GetToolByName w n = some ((some tool, true), w) := by
  unfold GetToolByName
  rw [heap_get_alive, h]

theorem GetToolByName_absent {w : World} {n : String}
    (hv : (visibleMap w).get n = none) (he : (extraMap w).get n = none) :
    GetToolByName w n = some ((none, false), w) := by
  unfold GetToolByName
  rw [heap_get_alive, hv]
  unfold extraMap at he
  cases hx : w.toolList.extraToolsMap with
  | none => rfl
  | some e =>
    rw [hx] at he
    simp only [] at he ⊢
    rw [he]

theorem GetToolByName_reveal {w : World} {n : String} {tool : BaseTool} {a e : Ref}
    (hv : (visibleMap w).get n = none) (ha : w.toolList.aliveToolsMap = some a)
    (hx : w.toolList.extraToolsMap = some e) (he : (w.heap.cell e).get n = some tool) :
    GetToolByName w n = some ((some tool, true),
      { w with
        heap := (w.heap.write e ((w.heap.cell e).delete n)).write a
          (((w.heap.write e ((w.heap.cell e).delete n)).cell a).set n tool),
        toolList := { w.toolList with aliveTools := w.toolList.aliveTools ++ [tool] } }) := by
  unfold GetToolByName
  rw [heap_get_alive, hv]
  simp only [hx, he, ha]

theorem GetToolByName_panic {w : World} {n : String} {tool : BaseTool}
    (ha : w.toolList.aliveToolsMap = none) (he : (extraMap w).get n = some tool) :
    GetToolByName w n = none := by
  unfold GetToolByName
  unfold extraMap at he
  cases hx : w.toolList.extraToolsMap with
  | none => rw [hx] at he; exact absurd he (by simp [GoMap.get_empty])
  | some e =>
    rw [hx] at he
    simp only [] at he
    simp only [Heap.get, ha, he]

/-- Whatever `GetToolByName` returns, it leaves the references of the
catalog, the options and the allocation mark as they were. -/
theorem GetToolByName_frame {w w1 : World} {n : String} {r : Option BaseTool × Bool}
    (h : GetToolByName w n = some (r, w1)) :
    w1.toolList.originalTools = w.toolList.originalTools ∧
    w1.toolList.aliveToolsMap = w.toolList.aliveToolsMap ∧
    w1.toolList.extraToolsMap = w.toolList.extraToolsMap ∧
    w1.options = w.options ∧ w1.heap.next = w.heap.next := by
  cases hv : (visibleMap w).get n with
  | some tool =>
    rw [GetToolByName_visible hv] at h
    simp only [Option.some.injEq, Prod.mk.injEq] at h
    obtain ⟨_, rfl⟩ := h
    simp
  | none =>
    cases he : (extraMap w).get n with
    | none =>
      rw [GetToolByName_absent hv he] at h
      simp only [Option.some.injEq, Prod.mk.injEq] at h
      obtain ⟨_, rfl⟩ := h
      simp
    | some tool =>
      cases ha : w.toolList.aliveToolsMap with
      | none => rw [GetToolByName_panic ha he] at h; exact absurd h (by simp)
      | some a =>
        cases hx : w.toolList.extraToolsMap with
        | none => simp [extraMap, hx, GoMap.get_empty] at he
        | some e =>
          have he2 : (w.heap.cell e).get n = some tool := by simpa [extraMap, hx] using he
          rw [GetToolByName_reveal hv ha hx he2] at h
          simp only [Option.some.injEq, Prod.mk.injEq] at h
          obtain ⟨_, rfl⟩ := h
          simp [ha, hx, Heap.write]

theorem wellFormed_GetToolByName {w w1 : World} {n : String} {r : Option BaseTool × Bool}
    (hw : WellFormed w) (h : GetToolByName w n = some (r, w1)) : WellFormed w1 := by
  obtain ⟨h1, h2, h3, h4, h5⟩ := GetToolByName_frame h
  refine ⟨?_, ?_, ?_, ?_⟩
  · rw [h1, h5]; exact hw.orig_lt
  · rw [h1, h2]; exact hw.alive
  · rw [h1, h3, h5]; exact hw.extra
  · rw [h1, h4, h5]; exact hw.opts

theorem wellFormed_step {w w1 : World} {op : Op} (hw : WellFormed w)
    (h : step w op = some w1) : WellFormed w1 := by
  cases op with
  | Init =>
    simp only [step, Option.some.injEq] at h
    subst h; exact wellFormed_Init hw
  | SetExtraTools tools =>
    simp only [step, Option.some.injEq] at h
    subst h; exact wellFormed_SetExtraTools hw tools
  | WithTools tools =>
    simp only [step, Option.some.injEq] at h
    subst h; exact wellFormed_WithTools hw tools
  | applyOption i =>
    simp only [step] at h
    cases ho : w.options[i]? with
    | none =>
      rw [ho] at h
      simp only [Option.some.injEq] at h
      subst h; exact hw
    | some o =>
      rw [ho] at h
      simp only [Option.some.injEq] at h
      subst h
      exact wellFormed_apply hw (List.getElem?_mem ho)
  | GetToolByName name =>
    simp only [step] at h
    cases hg : GetToolByName w name with
    | none => rw [hg] at h; exact absurd h (by simp)
    | some p =>
      obtain ⟨r, w2⟩ := p
      rw [hg] at h
      simp only [Option.map_some', Option.some.injEq] at h
      subst h
      exact wellFormed_GetToolByName hw hg

theorem wellFormed_run {ops : List Op} {w w1 : World} (hw : WellFormed w)
    (h : run w ops = some w1) : WellFormed w1 := by
  induction ops generalizing w with
  | nil =>
    simp only [run, Option.some.injEq] at h
    subst h; exact hw
  | cons op ops ih =>
    simp only [run] at h
    cases hs : step w op with
    | none => rw [hs] at h; exact absurd h (by simp)
    | some w2 =>
      rw [hs] at h
      exact ih (wellFormed_step hw hs) h

theorem Reachable.wellFormed {w : World} (h : Reachable w) : WellFormed w := by
  obtain ⟨tools, w0, ops, h0, hr⟩ := h
  exact wellFormed_run (wellFormed_NewToolList h0) hr

/-! ## Disjointness of the extra map and the original map -/

theorem namesFresh_spec {w : World} {m : GoMap BaseTool} (h : namesFresh w m = true)
    (k : String) (hk : m.get k ≠ none) : (originalMap w).get k = none := by
  unfold namesFresh at h
  rw [List.all_eq_true] at h
  have := h k ((GoMap.mem_keys_iff m k).mpr hk)
  simpa using this

theorem extraDisjoint_NewToolList {tools : List BaseTool} {w0 : World}
    (h : NewToolList tools = .ok w0) : ExtraDisjoint w0 := by
  unfold NewToolList at h
  rcases toolsToMap_cases tools with ⟨err, he⟩ | ⟨tm, he⟩
  · simp [he] at h
  · simp [he, Heap.alloc, Heap.init, Heap.write] at h
    subst h
    intro k hk
    simp [extraMap, GoMap.get_empty] at hk

theorem extraDisjoint_SetExtraTools {w : World} (hw : WellFormed w) (hd : ExtraDisjoint w)
    (tools : List BaseTool) (hf : (Op.SetExtraTools tools).installsFresh w = true) :
    ExtraDisjoint (SetExtraTools w tools).2 := by
  unfold SetExtraTools
  unfold Op.installsFresh at hf
  rcases toolsToMap_cases tools with ⟨err, he⟩ | ⟨tm, he⟩
  · simpa [he] using hd
  · simp only [he] at hf ⊢
    intro k hk
    have ho : w.toolList.originalTools ≠ w.heap.next := Nat.ne_of_lt hw.orig_lt
    simp only [extraMap, Heap.alloc, if_true] at hk
    simp only [originalMap, Heap.alloc, if_neg ho]
    exact namesFresh_spec hf k hk

theorem extraDisjoint_WithTools {w : World} (hw : WellFormed w) (hd : ExtraDisjoint w)
    (tools : List BaseTool) : ExtraDisjoint (WithTools w tools).2 := by
  unfold WithTools
  rcases toolsToMap_cases tools with ⟨err, he⟩ | ⟨tm, he⟩
  · simpa [he] using hd
  · simp only [he]
    intro k hk
    have ho : w.toolList.originalTools ≠ w.heap.next := Nat.ne_of_lt hw.orig_lt
    simp only [originalMap, Heap.alloc, if_neg ho]
    apply hd k
    cases hx : w.toolList.extraToolsMap with
    | none => simp [extraMap, hx, Heap.alloc, GoMap.get_empty] at hk
    | some e =>
      have hne : e ≠ w.heap.next := Nat.ne_of_lt (hw.extra e hx).1
      simpa [extraMap, hx, Heap.alloc, if_neg hne] using hk

theorem extraDisjoint_apply {w : World} {o : AgentOption}
    (hf : namesFresh w (w.heap.cell o.m) = true) : ExtraDisjoint (o.apply w).2 := by
  rw [apply_world]
  intro k hk
  exact namesFresh_spec hf k hk

theorem extraDisjoint_GetToolByName {w w1 : World} {n : String} {r : Option BaseTool × Bool}
    (hw : WellFormed w) (hd : ExtraDisjoint w) (h : GetToolByName w n = some (r, w1)) :
    ExtraDisjoint w1 := by
  cases hv : (visibleMap w).get n with
  | some tool =>
    rw [GetToolByName_visible hv] at h
    simp only [Option.some.injEq, Prod.mk.injEq] at h
    obtain ⟨_, rfl⟩ := h
    exact hd
  | none =>
    cases he : (extraMap w).get n with
    | none =>
      rw [GetToolByName_absent hv he] at h
      simp only [Option.some.injEq, Prod.mk.injEq] at h
      obtain ⟨_, rfl⟩ := h
      exact hd
    | some tool =>
      cases ha : w.toolList.aliveToolsMap with
      | none => rw [GetToolByName_panic ha he] at h; exact absurd h (by simp)
      | some a =>
        cases hx : w.toolList.extraToolsMap with
        | none => simp [extraMap, hx, GoMap.get_empty] at he
        | some e =>
          have he2 : (w.heap.cell e).get n = some tool := by simpa [extraMap, hx] using he
          rw [GetToolByName_reveal hv ha hx he2] at h
          simp only [Option.some.injEq, Prod.mk.injEq] at h
          obtain ⟨_, rfl⟩ := h
          have hao : a = w.toolList.originalTools := by
            rcases hw.alive with h0 | h0
            · rw [ha] at h0; exact absurd h0 (by simp)
            · rw [ha] at h0; exact Option.some.inj h0
          have hea : e ≠ a := hao ▸ (hw.extra e hx).2
          have hae : a ≠ e := fun x => hea x.symm
          intro k hk
          simp only [extraMap, hx, Heap.write, if_neg hea] at hk
          simp only [if_true] at hk
          simp only [originalMap, Heap.write, ← hao, if_true, if_neg hae]
          by_cases hkn : k = n
          · subst hkn
            exact absurd (GoMap.get_delete_same _ _) hk
          · rw [GoMap.get_delete_ne _ hkn] at hk
            rw [GoMap.get_set_ne _ _ hkn]
            have := hd k (by simpa [extraMap, hx] using hk)
            simpa [originalMap, ← hao] using this

theorem extraDisjoint_step {w w1 : World} {op : Op} (hw : WellFormed w)
    (hd : ExtraDisjoint w) (hf : op.installsFresh w = true) (h : step w op = some w1) :
    ExtraDisjoint w1 := by
  cases op with
  | Init =>
    simp only [step, Option.some.injEq] at h
    subst h; exact hd
  | SetExtraTools tools =>
    simp only [step, Option.some.injEq] at h
    subst h; exact extraDisjoint_SetExtraTools hw hd tools hf
  | WithTools tools =>
    simp only [step, Option.some.injEq] at h
    subst h; exact extraDisjoint_WithTools hw hd tools
  | applyOption i =>
    simp only [step] at h
    simp only [Op.installsFresh] at hf
    cases ho : w.options[i]? with
    | none =>
      rw [ho] at h
      simp only [Option.some.injEq] at h
      subst h; exact hd
    | some o =>
      rw [ho] at h hf
      simp only [Option.some.injEq] at h
      subst h
      exact extraDisjoint_apply hf
  | GetToolByName name =>
    simp only [step] at h
    cases hg : GetToolByName w name with
    | none => rw [hg] at h; exact absurd h (by simp)
    | some p =>
      obtain ⟨r, w2⟩ := p
      rw [hg] at h
      simp only [Option.map_some', Option.some.injEq] at h
      subst h
      exact extraDisjoint_GetToolByName hw hd hg

theorem extraDisjoint_run {ops : List Op} {w w1 : World} (hw : WellFormed w)
    (hd : ExtraDisjoint w) (hf : freshRun w ops = true) (h : run w ops = some w1) :
    ExtraDisjoint w1 := by
  induction ops generalizing w with
  | nil =>
    simp only [run, Option.some.injEq] at h
    subst h; exact hd
  | cons op ops ih =>
    simp only [run] at h
    simp only [freshRun, Bool.and_eq_true] at hf
    cases hs : step w op with
    | none => rw [hs] at h; exact absurd h (by simp)
    | some w2 =>
      rw [hs] at h hf
      exact ih (wellFormed_step hw hs) (extraDisjoint_step hw hd hf.1 hs) hf.2 h

/-! ## The catalog claims -/

/-- C1 (defect of the code).  Catalog isolation fails: on a catalog built by
`NewToolList` with no tool, after `Init`, the installation of the extra tool
`x` and its reveal by `GetToolByName`, a following `Init` leaves `x` in
`GetTools()`, which then has two entries (the reveal tool and `x`) instead of
the reveal tool alone.  `Init` stores the reference of the original map in
`aliveToolsMap`, so the reveal wrote `x` into the original map. -/
theorem C1_revealed_tool_survives_Init :
    NewToolList [] = .ok emptyCatalog ∧
    ∃ w, run emptyCatalog [.Init, .SetExtraTools [toolX], .GetToolByName "x", .Init] = some w ∧
      toolX ∈ GetTools w ∧ (GetTools w).length = 2 ∧
      (originalMap w).get "x" = some toolX :=
  ⟨rfl, _, rfl, by decide, by decide, by decide⟩

/-- C2 (defect of the code).  The reveal tool binds the model to a padded
list: on the catalog with no configured tool and the extra tool `x`, the
reveal of `x` succeeds with the message `get tool x success`, `GetTools()` then
has the two tools `special_get_tool` and `x`, and the list handed to the
model has four entries, two nil entries followed by the two tool infos. -/
theorem C2_reveal_binds_padded_list :
    Reachable catalogWithExtraX ∧
    ∃ w1 l, specialToolInvoke recordingModel catalogWithExtraX (NewLearnModel []) "x" =
        some (.ok "get tool x success", w1, l) ∧
      GetTools w1 = [.special, toolX] ∧
      l.tChatModel = [none, none, some ⟨"special_get_tool"⟩, some ⟨"x"⟩] :=
  ⟨⟨[], _, [.Init, .SetExtraTools [toolX]], rfl, rfl⟩, _, _, rfl, by decide, by decide⟩

/-- C3 (counterexample).  The run of `demo/react.go`: an agent configured
with a tool named `tool`, `Init`, and an option from `WithTools` carrying
another tool named `tool`.  Afterwards `tool` is a key of the visible map
and of the extra map at once. -/
theorem C3_counterexample :
    ∃ w0 w, NewToolList [exmapleTool] = .ok w0 ∧
      run w0 [.Init, .WithTools [exmaple2Tool], .applyOption 0] = some w ∧
      "tool" ∈ (visibleMap w).keys ∧ "tool" ∈ (extraMap w).keys :=
  ⟨_, _, rfl, rfl, by decide, by decide⟩

/-- C3 (amended).  In every catalog state reached from `NewToolList` by
`Init`, `SetExtraTools`, `WithTools`, the application of an option and
`GetToolByName`, where each installed extra map holds no name that is a key
of the original map at the moment of the install, no name is at once a key
of the visible map and a key of the extra map. -/
theorem C3_disjoint_when_installs_fresh (tools : List BaseTool) (ops : List Op)
    (w0 w : World) (h0 : NewToolList tools = .ok w0) (hf : freshRun w0 ops = true)
    (hr : run w0 ops = some w) :
    ∀ k, ¬ (k ∈ (visibleMap w).keys ∧ k ∈ (extraMap w).keys) := by
  intro k ⟨hv, he⟩
  have hw : WellFormed w := wellFormed_run (wellFormed_NewToolList h0) hr
  have hd : ExtraDisjoint w :=
    extraDisjoint_run (wellFormed_NewToolList h0) (extraDisjoint_NewToolList h0) hf hr
  rw [GoMap.mem_keys_iff] at hv he
  have ho := hd k he
  rcases hw.alive with ha | ha
  · simp [visibleMap, ha, GoMap.get_empty] at hv
  · simp only [visibleMap, ha] at hv
    exact hv ho

/-- C3 (witness).  A run with two fresh installs and a reveal. -/
theorem C3_disjoint_when_installs_fresh_witness :
    "x" ∈ (visibleMap freshDemo).keys ∧
    "tool" ∈ (extraMap freshDemo).keys ∧
    ∀ k, ¬ (k ∈ (visibleMap freshDemo).keys ∧ k ∈ (extraMap freshDemo).keys) :=
  ⟨by decide, by decide,
    C3_disjoint_when_installs_fresh [] [.Init, .WithTools [toolX], .applyOption 0,
      .GetToolByName "x", .SetExtraTools [exmapleTool], .Init] emptyCatalog freshDemo
      rfl (by decide) rfl⟩

/-- C4.  Lazy reveal: in a reachable catalog on which `Init` has run, for a
name `n` that is a key of the extra map (with tool `tool`) and not a key of
the visible map, `GetToolByName n` returns `(tool, true)`; afterwards `n` is
not in the extra map, `n` maps to `tool` in the visible map, and `GetTools()`
is the previous sequence with `tool` appended.  A second `GetToolByName n`
returns `(tool, true)` again and leaves the whole state, hence the visible map,
the visible sequence and the extra map, as it was. -/
theorem C4_lazy_reveal (w : World) (n : String) (tool : BaseTool)
    (hr : Reachable w) (hinit : w.toolList.aliveToolsMap ≠ none)
    (hextra : (extraMap w).get n = some tool) (hvis : (visibleMap w).get n = none) :
    ∃ w1, GetToolByName w n = some ((some tool, true), w1) ∧
      (extraMap w1).get n = none ∧
      (visibleMap w1).get n = some tool ∧
      GetTools w1 = GetTools w ++ [tool] ∧
      ∃ w2, GetToolByName w1 n = some ((some tool, true), w2) ∧
        visibleMap w2 = visibleMap w1 ∧ GetTools w2 = GetTools w1 ∧
        extraMap w2 = extraMap w1 := by
  have hw := hr.wellFormed
  cases ha : w.toolList.aliveToolsMap with
  | none => exact absurd ha hinit
  | some a =>
    cases hx : w.toolList.extraToolsMap with
    | none => simp [extraMap, hx, GoMap.get_empty] at hextra
    | some e =>
      have he2 : (w.heap.cell e).get n = some tool := by simpa [extraMap, hx] using hextra
      have hao : a = w.toolList.originalTools := by
        rcases hw.alive with h0 | h0
        · rw [ha] at h0; exact absurd h0 (by simp)
        · rw [ha] at h0; exact Option.some.inj h0
      have hea : e ≠ a := hao ▸ (hw.extra e hx).2
      have hvis1 : (visibleMap { w with
          heap := (w.heap.write e ((w.heap.cell e).delete n)).write a
            (((w.heap.write e ((w.heap.cell e).delete n)).cell a).set n tool),
          toolList := { w.toolList with aliveTools := w.toolList.aliveTools ++ [tool] } }).get n
          = some tool := by
        simp only [visibleMap, ha, Heap.write, if_true]
        exact GoMap.get_set_same _ _ _
      refine ⟨_, GetToolByName_reveal hvis ha hx he2, ?_, hvis1, rfl, _,
        GetToolByName_visible hvis1, rfl, rfl, rfl⟩
      simp only [extraMap, hx, Heap.write, if_neg hea, if_true]
      exact GoMap.get_delete_same _ _

/-- C4 (witness).  The reveal of `x` on the catalog with no configured tool
and the extra tool `x`. -/
theorem C4_lazy_reveal_witness :
    (extraMap catalogWithExtraX).get "x" = some toolX ∧
    ∃ w1, GetToolByName catalogWithExtraX "x" = some ((some toolX, true), w1) ∧
      (extraMap w1).get "x" = none ∧
      (visibleMap w1).get "x" = some toolX ∧
      GetTools w1 = GetTools catalogWithExtraX ++ [toolX] ∧
      ∃ w2, GetToolByName w1 "x" = some ((some toolX, true), w2) ∧
        visibleMap w2 = visibleMap w1 ∧ GetTools w2 = GetTools w1 ∧
        extraMap w2 = extraMap w1 :=
  ⟨by decide,
    C4_lazy_reveal catalogWithExtraX "x" toolX
      ⟨[], _, [.Init, .SetExtraTools [toolX]], rfl, rfl⟩ (by decide) (by decide) (by decide)⟩

/-- C5 (counterexample).  A first run starts with `Init` and an option from
`WithTools` that carries the tool `x`, and reveals nothing.  After the `Init`
of the next run the extra map still holds `x`, and `GetToolByName` finds `x`,
which is neither a configured tool nor the reveal tool. -/
theorem C5_counterexample :
    NewToolList [] = .ok emptyCatalog ∧
    ∃ o w1 fr w2, WithTools emptyCatalog [toolX] = (.ok o, w1) ∧
      startRun w1 [o] = (.ok fr, w2) ∧
      (extraMap (Init w2)).keys = ["x"] ∧
      (originalMap (Init w2)).keys = ["special_get_tool"] ∧
      (GetToolByName (Init w2) "x").map Prod.fst = some (some toolX, true) :=
  ⟨rfl, _, _, _, _, rfl, rfl, by decide, by decide, by decide⟩

/-- C5 (amended).  `Init` does not touch the extra partition: for every
catalog state the extra map after `Init()` is the extra map before it.  After
`Init()`, `GetToolByName` never panics, and it returns found=false exactly for
the names that are neither a key of the visible map nor a key of that extra
map. -/
theorem C5_Init_keeps_extra (w : World) :
    (Init w).toolList.extraToolsMap = w.toolList.extraToolsMap ∧
    extraMap (Init w) = extraMap w ∧
    ∀ n, GetToolByName (Init w) n ≠ none ∧
      ((GetToolByName (Init w) n).map (fun r => r.1.2) = some false ↔
        ((visibleMap (Init w)).get n = none ∧ (extraMap w).get n = none)) := by
  refine ⟨rfl, rfl, ?_⟩
  intro n
  have hext : extraMap (Init w) = extraMap w := rfl
  cases hv : (visibleMap (Init w)).get n with
  | some tool =>
    rw [GetToolByName_visible hv]
    simp
  | none =>
    cases he : (extraMap w).get n with
    | none =>
      rw [GetToolByName_absent hv (hext ▸ he)]
      simp
    | some tool =>
      cases hx : w.toolList.extraToolsMap with
      | none => simp [extraMap, hx, GoMap.get_empty] at he
      | some e =>
        have he2 : ((Init w).heap.cell e).get n = some tool := by
          simpa [extraMap, hx] using he
        have hx2 : (Init w).toolList.extraToolsMap = some e := hx
        rw [GetToolByName_reveal hv rfl hx2 he2]
        simp

/-! ## The model adapter -/

theorem WithToolsSeq_original {M : Type} (I : ToolCallingChatModel M)
    (calls : List (List (Option ToolInfo))) (l : LearnModel M) :
    (LearnModel.WithToolsSeq I l calls).originalChatModel = l.originalChatModel := by
  induction calls generalizing l with
  | nil => rfl
  | cons ts rest ih =>
    simp only [LearnModel.WithToolsSeq]
    rw [ih]
    unfold LearnModel.WithTools
    cases I.WithTools l.originalChatModel ts <;> rfl

theorem WithToolsSeq_all_fail {M : Type} (I : ToolCallingChatModel M)
    (calls : List (List (Option ToolInfo))) (l : LearnModel M)
    (h : ∀ t ∈ calls, ∃ e, I.WithTools l.originalChatModel t = .error e) :
    LearnModel.WithToolsSeq I l calls = l := by
  induction calls with
  | nil => rfl
  | cons ts rest ih =>
    obtain ⟨e, he⟩ := h ts (List.mem_cons_self _ _)
    have h1 : (LearnModel.WithTools I l ts).2 = l := by
      unfold LearnModel.WithTools
      rw [he]
    simp only [LearnModel.WithToolsSeq, h1]
    exact ih (fun t ht => h t (List.mem_cons_of_mem _ ht))

theorem WithToolsSeq_append {M : Type} (I : ToolCallingChatModel M)
    (pre post : List (List (Option ToolInfo))) (l : LearnModel M) :
    LearnModel.WithToolsSeq I l (pre ++ post) =
      LearnModel.WithToolsSeq I (LearnModel.WithToolsSeq I l pre) post := by
  induction pre generalizing l with
  | nil => rfl
  | cons ts rest ih =>
    show LearnModel.WithToolsSeq I l (ts :: (rest ++ post)) = _
    simp only [LearnModel.WithToolsSeq]
    exact ih _

/-- C6.  `LearnModel.WithTools` binds the list on the original model.  When
that bind fails with `err`, the call returns nil and `err` and the adapter is
what it was.  When it succeeds with `m`, the call returns the receiver and no
error, the current model is `m` and the original model is unchanged.  Hence a
sequence of calls leaves the original model unchanged, after a sequence whose
last successful call bound `ts` the current model is the original model
bound to `ts`, and a sequence with no successful call leaves the adapter as
it was. -/
theorem C6_WithTools_atomic {M : Type} (I : ToolCallingChatModel M) (l : LearnModel M)
    (tools : List (Option ToolInfo)) :
    (∀ err, I.WithTools l.originalChatModel tools = .error err →
      LearnModel.WithTools I l tools = ((.nil, some err), l)) ∧
    (∀ m, I.WithTools l.originalChatModel tools = .ok m →
      LearnModel.WithTools I l tools =
        ((.receiver, none), { tChatModel := m, originalChatModel := l.originalChatModel })) ∧
    (∀ calls, (LearnModel.WithToolsSeq I l calls).originalChatModel = l.originalChatModel) ∧
    (∀ pre ts post m, I.WithTools l.originalChatModel ts = .ok m →
      (∀ t ∈ post, ∃ e, I.WithTools l.originalChatModel t = .error e) →
      (LearnModel.WithToolsSeq I l (pre ++ ts :: post)).tChatModel = m) ∧
    (∀ calls, (∀ t ∈ calls, ∃ e, I.WithTools l.originalChatModel t = .error e) →
      LearnModel.WithToolsSeq I l calls = l) := by
  refine ⟨?_, ?_, ?_, ?_, ?_⟩
  · intro err h
    unfold LearnModel.WithTools
    rw [h]
  · intro m h
    unfold LearnModel.WithTools
    rw [h]
  · intro calls
    exact WithToolsSeq_original I calls l
  · intro pre ts post m hm hpost
    rw [WithToolsSeq_append]
    have ho := WithToolsSeq_original I pre l
    simp only [LearnModel.WithToolsSeq]
    have h1 : (LearnModel.WithTools I (LearnModel.WithToolsSeq I l pre) ts).2 =
        { tChatModel := m, originalChatModel := l.originalChatModel } := by
      unfold LearnModel.WithTools
      rw [ho, hm]
    rw [h1, WithToolsSeq_all_fail I post
      { tChatModel := m, originalChatModel := l.originalChatModel } hpost]
  · intro calls h
    exact WithToolsSeq_all_fail I calls l h

/-- C6 (witness).  On an adapter over `strictModel`, a call with the list
`[a]` succeeds and a later call with a nil entry fails: the current model is
the original model bound to `[a]`. -/
theorem C6_WithTools_atomic_witness :
    strictModel.WithTools (NewLearnModel []).originalChatModel [some ⟨"a"⟩] = .ok [some ⟨"a"⟩] ∧
    (LearnModel.WithToolsSeq strictModel (NewLearnModel []) ([[some ⟨"b"⟩]] ++
      [some ⟨"a"⟩] :: [[none]])).tChatModel = [some ⟨"a"⟩] :=
  ⟨rfl, (C6_WithTools_atomic strictModel (NewLearnModel []) []).2.2.2.1
    [[some ⟨"b"⟩]] [some ⟨"a"⟩] [[none]] [some ⟨"a"⟩] rfl
    (fun t ht => by
      simp only [List.mem_singleton] at ht
      subst ht
      exact ⟨_, rfl⟩)⟩

/-! ## The default tool-call checker -/

theorem checkChunkLoop_eq_Recv (sr : StreamReader) :
    checkChunkLoop sr.events =
      match sr.Recv with
      | ((_, some err), sr1) =>
        if err = .EOF then ((false, none), sr1.events) else ((false, some err), sr1.events)
      | ((some msg, none), sr1) =>
        if msg.ToolCalls.length > 0 then ((true, none), sr1.events)
        else checkChunkLoop sr1.events
      | ((none, none), sr1) => ((false, none), sr1.events) := by
  obtain ⟨events, closed⟩ := sr
  cases events with
  | nil => simp [StreamReader.Recv, checkChunkLoop]
  | cons e rest =>
    cases e with
    | chunk msg => simp [StreamReader.Recv, checkChunkLoop]
    | error err => simp [StreamReader.Recv, checkChunkLoop]

theorem checkChunkLoop_skip (pre rest : List Event) (h : ∀ e ∈ pre, e.quiet = true) :
    checkChunkLoop (pre ++ rest) = checkChunkLoop rest := by
  induction pre with
  | nil => rfl
  | cons e pre ih =>
    have he := h e (List.mem_cons_self _ _)
    cases e with
    | error err => simp [Event.quiet] at he
    | chunk msg =>
      simp only [Event.quiet, List.isEmpty_iff] at he
      simp only [List.cons_append, checkChunkLoop, he, List.length_nil, gt_iff_lt,
        Nat.lt_irrefl, if_false]
      exact ih (fun x hx => h x (List.mem_cons_of_mem _ hx))

theorem checkChunkLoop_quiet (events : List Event) (h : ∀ e ∈ events, e.quiet = true) :
    checkChunkLoop events = ((false, none), []) := by
  have := checkChunkLoop_skip events [] h
  simpa [checkChunkLoop] using this

theorem checkChunkLoop_toolCall (pre : List Event) (m : Message) (post : List Event)
    (hm : m.ToolCalls ≠ []) (h : ∀ e ∈ pre, e.isError = false) :
    (checkChunkLoop (pre ++ .chunk m :: post)).1 = (true, none) := by
  induction pre with
  | nil =>
    have : m.ToolCalls.length > 0 := List.length_pos.mpr hm
    simp [checkChunkLoop, this]
  | cons e pre ih =>
    have he := h e (List.mem_cons_self _ _)
    cases e with
    | error err => simp [Event.isError] at he
    | chunk msg =>
      simp only [List.cons_append, checkChunkLoop]
      split
      · rfl
      · exact ih (fun x hx => h x (List.mem_cons_of_mem _ hx))

theorem quiet_or_split (events : List Event) :
    (∀ e ∈ events, e.quiet = true) ∨
    ∃ pre d post, events = pre ++ d :: post ∧ (∀ e ∈ pre, e.quiet = true) ∧ d.quiet = false := by
  induction events with
  | nil => exact Or.inl (fun e he => absurd he (List.not_mem_nil e))
  | cons e rest ih =>
    cases hq : e.quiet with
    | false => exact Or.inr ⟨[], e, rest, rfl, fun x hx => absurd hx (List.not_mem_nil x), hq⟩
    | true =>
      rcases ih with hall | ⟨pre, d, post, he, hpre, hd⟩
      · left
        intro x hx
        rcases List.mem_cons.mp hx with rfl | hx
        · exact hq
        · exact hall x hx
      · right
        refine ⟨e :: pre, d, post, by rw [he]; rfl, ?_, hd⟩
        intro x hx
        rcases List.mem_cons.mp hx with rfl | hx
        · exact hq
        · exact hpre x hx

/-- The loop at the first event that is not a quiet chunk. -/
theorem checkChunkLoop_split (pre : List Event) (d : Event) (post : List Event)
    (hpre : ∀ e ∈ pre, e.quiet = true) (hd : d.quiet = false)
    (hne : d ≠ .error .EOF) :
    checkChunkLoop (pre ++ d :: post) = d.verdict post := by
  rw [checkChunkLoop_skip pre _ hpre]
  cases d with
  | chunk msg =>
    have : msg.ToolCalls.length > 0 := by
      simp only [Event.quiet, List.isEmpty_eq_false] at hd
      exact List.length_pos.mpr hd
    simp [checkChunkLoop, this, Event.verdict]
  | error err =>
    have : err ≠ .EOF := fun h => hne (h ▸ rfl)
    simp [checkChunkLoop, this, Event.verdict]

/-- C7.  On a model output given by the events `sr.events` (chunks and
errors other than `io.EOF`) followed by the end of the stream,
`checkChunkStreamToolCallChecker` closes the stream on every exit; it returns
`(true, nil)` exactly when a chunk with a non-empty `ToolCalls` comes with no
error event before it; it returns `(false, err)` exactly when the error `err`
comes with only chunks without tool calls before it; it returns `(false, nil)`
exactly when every event is a chunk without tool calls.  The events after the
deciding one are left unread, and none is left when the stream ends. -/
theorem C7_default_checker (sr : StreamReader)
    (hne : ∀ e ∈ sr.events, e ≠ .error .EOF) :
    (checkChunkStreamToolCallChecker sr).2.closed = true ∧
    ((checkChunkStreamToolCallChecker sr).1 = (true, none) ↔
      ∃ pre m post, sr.events = pre ++ .chunk m :: post ∧ m.ToolCalls ≠ [] ∧
        ∀ e ∈ pre, e.isError = false) ∧
    (∀ err, (checkChunkStreamToolCallChecker sr).1 = (false, some err) ↔
      ∃ pre post, sr.events = pre ++ .error err :: post ∧ ∀ e ∈ pre, e.quiet = true) ∧
    ((checkChunkStreamToolCallChecker sr).1 = (false, none) ↔
      ∀ e ∈ sr.events, e.quiet = true) ∧
    (∀ pre d post, sr.events = pre ++ d :: post → (∀ e ∈ pre, e.quiet = true) →
      d.quiet = false → (checkChunkStreamToolCallChecker sr).2.events = post) ∧
    ((∀ e ∈ sr.events, e.quiet = true) →
      (checkChunkStreamToolCallChecker sr).2.events = []) := by
  obtain ⟨events, closed⟩ := sr
  simp only [checkChunkStreamToolCallChecker, StreamReader.Close] at hne ⊢
  have hsplit : ∀ pre d post, events = pre ++ d :: post → (∀ e ∈ pre, e.quiet = true) →
      d.quiet = false → checkChunkLoop events = d.verdict post := by
    intro pre d post he hpre hd
    have hd2 : d ≠ .error .EOF := hne d (by rw [he]; simp)
    rw [he]
    exact checkChunkLoop_split pre d post hpre hd hd2
  refine ⟨trivial, ⟨?_, ?_⟩, ?_, ⟨?_, ?_⟩, ?_, ?_⟩
  · intro h
    rcases quiet_or_split events with hall | ⟨pre, d, post, he, hpre, hd⟩
    · rw [checkChunkLoop_quiet events hall] at h
      simp at h
    · rw [hsplit pre d post he hpre hd] at h
      cases d with
      | error err => simp [Event.verdict] at h
      | chunk m =>
        refine ⟨pre, m, post, he, ?_, ?_⟩
        · simpa [Event.quiet] using hd
        · intro e hx
          have := hpre e hx
          cases e with
          | chunk _ => rfl
          | error _ => simp [Event.quiet] at this
  · rintro ⟨pre, m, post, he, hm, hpre⟩
    rw [he]
    exact checkChunkLoop_toolCall pre m post hm hpre
  · intro err
    constructor
    · intro h
      rcases quiet_or_split events with hall | ⟨pre, d, post, he, hpre, hd⟩
      · rw [checkChunkLoop_quiet events hall] at h
        simp at h
      · rw [hsplit pre d post he hpre hd] at h
        cases d with
        | chunk m => simp [Event.verdict] at h
        | error err0 =>
          simp only [Event.verdict, Prod.mk.injEq, Option.some.injEq, true_and] at h
          subst h
          exact ⟨pre, post, he, hpre⟩
    · rintro ⟨pre, post, he, hpre⟩
      rw [hsplit pre (.error err) post he hpre rfl]
      rfl
  · intro h
    rcases quiet_or_split events with hall | ⟨pre, d, post, he, hpre, hd⟩
    · exact hall
    · rw [hsplit pre d post he hpre hd] at h
      cases d with
      | chunk m => simp [Event.verdict] at h
      | error err0 => simp [Event.verdict] at h
  · intro hall
    rw [checkChunkLoop_quiet events hall]
  · intro pre d post he hpre hd
    rw [hsplit pre d post he hpre hd]
    cases d <;> rfl
  · intro hall
    rw [checkChunkLoop_quiet events hall]

/-- C7 (witness).  On `demoEvents` the checker answers at the second chunk,
leaves the third chunk and the error unread and closes the stream. -/
theorem C7_default_checker_witness :
    checkChunkStreamToolCallChecker ⟨demoEvents, false⟩ =
      ((true, none), ⟨[.chunk ⟨"assistant", "tail", [], ""⟩,
        .error (.errorf "connection reset")], true⟩) ∧
    (checkChunkStreamToolCallChecker ⟨demoEvents, false⟩).2.closed = true ∧
    ((checkChunkStreamToolCallChecker ⟨demoEvents, false⟩).1 = (true, none) ↔
      ∃ pre m post, demoEvents = pre ++ .chunk m :: post ∧ m.ToolCalls ≠ [] ∧
        ∀ e ∈ pre, e.isError = false) :=
  ⟨by decide,
    (C7_default_checker ⟨demoEvents, false⟩ (by decide)).1,
    (C7_default_checker ⟨demoEvents, false⟩ (by decide)).2.1⟩

/-! ## The tools-node pre-handler -/

theorem recordToolCalls_untouched (calls : List ToolCall) (m : GoMap String) (k : String)
    (h : ∀ tc ∈ calls, tc.ID ≠ k) : (recordToolCalls calls m).get k = m.get k := by
  induction calls generalizing m with
  | nil => rfl
  | cons c rest ih =>
    simp only [recordToolCalls]
    rw [ih _ (fun tc htc => h tc (List.mem_cons_of_mem _ htc))]
    exact GoMap.get_set_ne _ _ (fun e => h c (List.mem_cons_self _ _) e.symm)

theorem recordToolCalls_append (pre post : List ToolCall) (m : GoMap String) :
    recordToolCalls (pre ++ post) m = recordToolCalls post (recordToolCalls pre m) := by
  induction pre generalizing m with
  | nil => rfl
  | cons c rest ih =>
    show recordToolCalls (c :: (rest ++ post)) m = _
    simp only [recordToolCalls]
    exact ih _

theorem recordToolCalls_last (pre : List ToolCall) (tc : ToolCall) (post : List ToolCall)
    (m : GoMap String) (h : ∀ t ∈ post, t.ID ≠ tc.ID) :
    (recordToolCalls (pre ++ tc :: post) m).get tc.ID = some tc.Function.Name := by
  rw [recordToolCalls_append]
  simp only [recordToolCalls]
  rw [recordToolCalls_untouched post _ _ h]
  exact GoMap.get_set_same _ _ _

theorem recordToolCalls_mem (calls : List ToolCall) (m : GoMap String) (k : String)
    (h : m.get k ≠ none ∨ ∃ tc ∈ calls, tc.ID = k) :
    (recordToolCalls calls m).get k ≠ none := by
  induction calls generalizing m with
  | nil =>
    rcases h with h | ⟨tc, htc, _⟩
    · exact h
    · exact absurd htc (List.not_mem_nil tc)
  | cons c rest ih =>
    simp only [recordToolCalls]
    apply ih
    by_cases hk : k = c.ID
    · left
      rw [hk, GoMap.get_set_same]
      simp
    · rcases h with h | ⟨tc, htc, hid⟩
      · left
        rw [GoMap.get_set_ne _ _ hk]
        exact h
      · right
        rcases List.mem_cons.mp htc with rfl | htc
        · exact absurd hid.symm hk
        · exact ⟨tc, htc, hid⟩

theorem returnDirectlyLoop_none (trd : GoMap Unit) (calls : List ToolCall)
    (h : ∀ tc ∈ calls, trd.get tc.Function.Name = none) : returnDirectlyLoop trd calls = "" := by
  induction calls with
  | nil => rfl
  | cons c rest ih =>
    simp only [returnDirectlyLoop, h c (List.mem_cons_self _ _)]
    exact ih (fun tc htc => h tc (List.mem_cons_of_mem _ htc))

theorem returnDirectlyLoop_first (trd : GoMap Unit) (pre : List ToolCall) (tc : ToolCall)
    (post : List ToolCall) (htc : trd.get tc.Function.Name ≠ none)
    (hpre : ∀ t ∈ pre, trd.get t.Function.Name = none) :
    returnDirectlyLoop trd (pre ++ tc :: post) = tc.ID := by
  induction pre with
  | nil =>
    cases hg : trd.get tc.Function.Name with
    | none => exact absurd hg htc
    | some u => simp only [List.nil_append, returnDirectlyLoop, hg]
  | cons c rest ih =>
    show returnDirectlyLoop trd (c :: (rest ++ tc :: post)) = _
    simp only [returnDirectlyLoop, hpre c (List.mem_cons_self _ _)]
    exact ih (fun t ht => hpre t (List.mem_cons_of_mem _ ht))

theorem returnDirectlyLoop_mem (trd : GoMap Unit) (calls : List ToolCall) :
    returnDirectlyLoop trd calls = "" ∨ ∃ tc ∈ calls, returnDirectlyLoop trd calls = tc.ID := by
  induction calls with
  | nil => exact Or.inl rfl
  | cons c rest ih =>
    cases hg : trd.get c.Function.Name with
    | some u =>
      right
      exact ⟨c, List.mem_cons_self _ _, by simp only [returnDirectlyLoop, hg]⟩
    | none =>
      simp only [returnDirectlyLoop, hg]
      rcases ih with h | ⟨tc, htc, h⟩
      · exact Or.inl h
      · exact Or.inr ⟨tc, List.mem_cons_of_mem _ htc, h⟩

theorem getReturnDirectlyToolCallID_mem (trd : GoMap Unit) (msg : Message) :
    getReturnDirectlyToolCallID msg trd = "" ∨
    ∃ tc ∈ msg.ToolCalls, getReturnDirectlyToolCallID msg trd = tc.ID := by
  unfold getReturnDirectlyToolCallID
  split
  · exact Or.inl rfl
  · exact returnDirectlyLoop_mem trd msg.ToolCalls

/-- C8 (counterexample).  The turn state maps the id `call_1` to `search`
and the model message carries a tool call with the id `call_1` for the tool
`weather`: afterwards the id maps to `weather`, so the old entry is not held. -/
theorem C8_counterexample :
    stateWithCall.toolName "call_1" = some "search" ∧
    ∃ st1, toolsNodePreHandle GoMap.empty (some reusedIdMessage) stateWithCall =
        some ((some reusedIdMessage, none), st1) ∧
      st1.toolName "call_1" = some "weather" ∧
      st1.toolName "call_1" ≠ stateWithCall.toolName "call_1" :=
  ⟨by decide, _, rfl, by decide, by decide⟩

/-- C8 (amended).  For every turn state, every non-nil model message `msg` and
every `ToolReturnDirectly` set, `toolsNodePreHandle` returns `msg` and after
it: the history is the old history with `msg` appended; `toolCallIDMap` holds
every old entry whose key is not the id of a tool call of `msg`, and maps the
id of each tool call of `msg` to the `Function.Name` of the last tool call of
`msg` with that id; `ReturnDirectlyToolCallID` is empty when the set is empty
or no call matches, and otherwise the id of the first tool call of `msg` whose
name is in the set; and `ReturnDirectlyToolCallID` is empty or a key of
`toolCallIDMap`. -/
theorem C8_tool_step_bookkeeping (trd : GoMap Unit) (msg : Message) (st : State) :
    ∃ st1, toolsNodePreHandle trd (some msg) st = some ((some msg, none), st1) ∧
      st1.Messages = st.Messages ++ [some msg] ∧
      (∀ k, (∀ tc ∈ msg.ToolCalls, tc.ID ≠ k) → st1.toolName k = st.toolName k) ∧
      (∀ pre tc post, msg.ToolCalls = pre ++ tc :: post → (∀ t ∈ post, t.ID ≠ tc.ID) →
        st1.toolName tc.ID = some tc.Function.Name) ∧
      (trd.keys = [] → st1.ReturnDirectlyToolCallID = "") ∧
      ((∀ tc ∈ msg.ToolCalls, trd.get tc.Function.Name = none) →
        st1.ReturnDirectlyToolCallID = "") ∧
      (∀ pre tc post, msg.ToolCalls = pre ++ tc :: post →
        trd.get tc.Function.Name ≠ none → (∀ t ∈ pre, trd.get t.Function.Name = none) →
        st1.ReturnDirectlyToolCallID = tc.ID) ∧
      (st1.ReturnDirectlyToolCallID = "" ∨
        st1.toolName st1.ReturnDirectlyToolCallID ≠ none) := by
  refine ⟨_, rfl, rfl, ?_, ?_, ?_, ?_, ?_, ?_⟩
  · intro k hk
    simp only [State.toolName]
    rw [recordToolCalls_untouched _ _ _ hk]
    cases st.toolCallIDMap <;> rfl
  · intro pre tc post he hpost
    simp only [State.toolName]
    rw [he]
    exact recordToolCalls_last pre tc post _ hpost
  · intro hk
    simp [getReturnDirectlyToolCallID, hk]
  · intro hall
    simp only [getReturnDirectlyToolCallID]
    split
    · rfl
    · exact returnDirectlyLoop_none trd _ hall
  · intro pre tc post he htc hpre
    have hkeys : trd.keys.length ≠ 0 := by
      have := (GoMap.mem_keys_iff trd tc.Function.Name).mpr htc
      intro h0
      rw [List.length_eq_zero] at h0
      rw [h0] at this
      exact absurd this (List.not_mem_nil _)
    simp only [getReturnDirectlyToolCallID, if_neg hkeys]
    rw [he]
    exact returnDirectlyLoop_first trd pre tc post htc hpre
  · rcases getReturnDirectlyToolCallID_mem trd msg with h | ⟨tc, htc, h⟩
    · exact Or.inl h
    · right
      simp only [State.toolName]
      rw [h]
      exact recordToolCalls_mem _ _ _ (Or.inr ⟨tc, htc, rfl⟩)

/-- C8 (witness).  On `threeCallMessage` with the set `returnFinal`, the id
`a` maps to the name of the later of its two calls, the old entry `call_1`
is kept, and the call `b` is the one returned directly. -/
theorem C8_tool_step_bookkeeping_witness :
    ∃ st1, toolsNodePreHandle returnFinal (some threeCallMessage) stateWithCall =
        some ((some threeCallMessage, none), st1) ∧
      st1.toolName "call_1" = some "search" ∧
      st1.toolName "a" = some "final" ∧
      st1.ReturnDirectlyToolCallID = "b" := by
  obtain ⟨st1, h1, _, h3, h4, _, _, h7, _⟩ :=
    C8_tool_step_bookkeeping returnFinal threeCallMessage stateWithCall
  refine ⟨st1, h1, ?_, ?_, ?_⟩
  · rw [h3 "call_1" (by decide)]
    decide
  · exact h4 [⟨"a", ⟨"search", ""⟩⟩, ⟨"b", ⟨"final", ""⟩⟩] ⟨"a", ⟨"final", ""⟩⟩ [] rfl
      (by decide)
  · exact h7 [⟨"a", ⟨"search", ""⟩⟩] ⟨"b", ⟨"final", ""⟩⟩ [⟨"a", ⟨"final", ""⟩⟩] rfl
      (by decide) (by decide)

/-! ## The direct-return conversion -/

theorem directReturnFind_first (r : String) (pre : List MessagePtr) (m : Message)
    (post : List MessagePtr) (hm : m.ToolCallID = r)
    (hpre : ∀ x ∈ pre, ∀ m0, x = some m0 → m0.ToolCallID ≠ r) :
    directReturnFind r (pre ++ some m :: post) = some m := by
  induction pre with
  | nil => simp [directReturnFind, hm]
  | cons x rest ih =>
    have ih2 := ih (fun y hy => hpre y (List.mem_cons_of_mem _ hy))
    cases x with
    | none => simpa [directReturnFind] using ih2
    | some m0 =>
      have := hpre (some m0) (List.mem_cons_self _ _) m0 rfl
      simpa [directReturnFind, this] using ih2

theorem directReturnFind_none_iff (r : String) (msgs : List MessagePtr) :
    directReturnFind r msgs = none ↔ ∀ m, some m ∈ msgs → m.ToolCallID ≠ r := by
  induction msgs with
  | nil => simp [directReturnFind]
  | cons x rest ih =>
    cases x with
    | none => simpa [directReturnFind] using ih
    | some m0 =>
      by_cases h : m0.ToolCallID = r
      · simp only [directReturnFind, h, if_true]
        constructor
        · intro hh; exact absurd hh (by simp)
        · intro hh; exact absurd h (hh m0 (List.mem_cons_self _ _))
      · simp only [directReturnFind, h, if_false, ih]
        constructor
        · intro hh m hmem
          rcases List.mem_cons.mp hmem with he | hmem
          · rw [Option.some.inj he]; exact h
          · exact hh m hmem
        · intro hh m hmem
          exact hh m (List.mem_cons_of_mem _ hmem)

theorem directReturnConvert_first (st : State) (pre : List MessagePtr) (m : Message)
    (post : List MessagePtr) (hm : m.ToolCallID = st.ReturnDirectlyToolCallID)
    (hpre : ∀ x ∈ pre, ∀ m0, x = some m0 → m0.ToolCallID ≠ st.ReturnDirectlyToolCallID) :
    directReturnConvert st (pre ++ some m :: post) = (some m, none) := by
  unfold directReturnConvert
  rw [directReturnFind_first _ pre m post hm hpre]

theorem directReturnConvert_none_iff (st : State) (msgs : List MessagePtr) :
    directReturnConvert st msgs = (none, some .ErrNoValue) ↔
      ∀ m, some m ∈ msgs → m.ToolCallID ≠ st.ReturnDirectlyToolCallID := by
  rw [← directReturnFind_none_iff]
  unfold directReturnConvert
  cases directReturnFind st.ReturnDirectlyToolCallID msgs <;> simp

/-- C9 (counterexample).  No message of `unmatchedResults` has the stored
`ToolCallID` `b`.  The direct-return step on the stream that holds this one
list yields the end of the stream, as on a stream with no list at all, and no
error of its own; on the stream that holds this list and then `demoResults` it
yields the answer to `b` from the second list with no error. -/
theorem C9_counterexample :
    (unmatchedResults.filterMap id).map Message.ToolCallID = ["a"] ∧
    stateReturnB.ReturnDirectlyToolCallID = "b" ∧
    (directReturn [.chunk unmatchedResults]).1.Recv stateReturnB =
      ((none, some .EOF), ⟨[]⟩) ∧
    (directReturn [.chunk unmatchedResults]).1.Recv stateReturnB =
      (directReturn []).1.Recv stateReturnB ∧
    (directReturn [.chunk unmatchedResults, .chunk demoResults]).1.Recv stateReturnB =
      ((some ⟨"tool", "r2", [], "b"⟩, none), ⟨[]⟩) :=
  ⟨by decide, by decide, by decide, by decide, by decide⟩

/-- C9 (amended).  For every list of tool results (entries may be nil), every
stored `ReturnDirectlyToolCallID` and every rest of the stream: the
conversion function of `directReturn` returns, as it is and with no error,
the first non-nil message whose `ToolCallID` is the stored id, and the
direct-return step yields that message; the conversion function returns no
message and `schema.ErrNoValue` exactly when no message of the list has that
`ToolCallID`, and then the direct-return step yields neither a message nor an
error for the list: it goes on to the rest of the stream, and reports the end
of the stream when the list was the last one. -/
theorem C9_direct_return_skips_unmatched (st : State) (msgs : List MessagePtr)
    (rest : List ResultEvent) :
    (∀ pre m post, msgs = pre ++ some m :: post →
      m.ToolCallID = st.ReturnDirectlyToolCallID →
      (∀ x ∈ pre, ∀ m0, x = some m0 → m0.ToolCallID ≠ st.ReturnDirectlyToolCallID) →
      directReturnConvert st msgs = (some m, none) ∧
      (directReturn (.chunk msgs :: rest)).1.Recv st = ((some m, none), ⟨rest⟩)) ∧
    (directReturnConvert st msgs = (none, some .ErrNoValue) ↔
      ∀ m, some m ∈ msgs → m.ToolCallID ≠ st.ReturnDirectlyToolCallID) ∧
    ((∀ m, some m ∈ msgs → m.ToolCallID ≠ st.ReturnDirectlyToolCallID) →
      (directReturn (.chunk msgs :: rest)).1.Recv st = (directReturn rest).1.Recv st ∧
      (directReturn [.chunk msgs]).1.Recv st = ((none, some .EOF), ⟨[]⟩)) ∧
    (directReturn (.chunk msgs :: rest)).2 = none := by
  refine ⟨?_, directReturnConvert_none_iff st msgs, ?_, rfl⟩
  · intro pre m post he hm hpre
    have hc : directReturnConvert st msgs = (some m, none) := by
      rw [he]; exact directReturnConvert_first st pre m post hm hpre
    refine ⟨hc, ?_⟩
    simp only [directReturn, DirectReturnReader.Recv, convertRecv, hc]
  · intro hall
    have hc := (directReturnConvert_none_iff st msgs).mpr hall
    constructor
    · simp only [directReturn, DirectReturnReader.Recv, convertRecv, hc, if_true]
    · simp only [directReturn, DirectReturnReader.Recv, convertRecv, hc, if_true]

/-- C9 (witness).  With the stored id `b`: on `demoResults` the step yields
the first of the two results that answer `b` and leaves the rest of the
stream; the list `unmatchedResults` before it is skipped. -/
theorem C9_direct_return_skips_unmatched_witness :
    (directReturn (.chunk demoResults :: [.error (.errorf "late")])).1.Recv stateReturnB =
      ((some ⟨"tool", "r2", [], "b"⟩, none), ⟨[.error (.errorf "late")]⟩) ∧
    (directReturn (.chunk unmatchedResults :: [.chunk demoResults])).1.Recv stateReturnB =
      (directReturn [.chunk demoResults]).1.Recv stateReturnB :=
  ⟨((C9_direct_return_skips_unmatched stateReturnB demoResults [.error (.errorf "late")]).1
      [none, some ⟨"tool", "r1", [], "a"⟩] ⟨"tool", "r2", [], "b"⟩
      [some ⟨"tool", "r3", [], "b"⟩] rfl rfl (by decide)).2,
    ((C9_direct_return_skips_unmatched stateReturnB unmatchedResults
      [.chunk demoResults]).2.2.1
      ((directReturnFind_none_iff "b" unmatchedResults).mp (by decide))).1⟩

/-! ## The model pre-handler -/

/-- C10.  For every stored history `h`, incoming list `i`, rewriter `R` and
modifier `M` (each the identity when not configured), `modelPreHandle`
stores `R (h ++ i)` as the history, returns `M (R (h ++ i))` with no error, and
leaves the other fields of the state as they were; what a configured
modifier writes into its argument lands in the copy `modifiedInput`; the state
afterwards is the same for any two modifiers; and with no rewriter the old
history is an initial segment of the new one. -/
theorem C10_model_pre_handle (config : AgentConfig) (input : List MessagePtr) (state : State) :
    (modelPreHandle config input state).state.Messages =
      MessageModifier.orId config.MessageRewriter (state.Messages ++ input) ∧
    (modelPreHandle config input state).output =
      MessageModifier.orId config.MessageModifier
        (MessageModifier.orId config.MessageRewriter (state.Messages ++ input)) ∧
    (modelPreHandle config input state).err = none ∧
    (modelPreHandle config input state).state.ReturnDirectlyToolCallID =
      state.ReturnDirectlyToolCallID ∧
    (modelPreHandle config input state).state.toolCallIDMap = state.toolCallIDMap ∧
    (∀ M, config.MessageModifier = some M →
      (modelPreHandle config input state).modifiedInput =
        some (M.leaves (MessageModifier.orId config.MessageRewriter (state.Messages ++ input)))) ∧
    (∀ M1 M2 : Option MessageModifier,
      (modelPreHandle { config with MessageModifier := M1 } input state).state =
      (modelPreHandle { config with MessageModifier := M2 } input state).state) ∧
    (config.MessageRewriter = none →
      state.Messages <+: (modelPreHandle config input state).state.Messages) := by
  obtain ⟨M, R, trd⟩ := config
  refine ⟨?_, ?_, ?_, ?_, ?_, ?_, ?_, ?_⟩
  · cases M <;> cases R <;> rfl
  · cases M <;> cases R <;> rfl
  · cases M <;> cases R <;> rfl
  · cases M <;> cases R <;> rfl
  · cases M <;> cases R <;> rfl
  · intro M0 h
    simp only at h
    subst h
    cases R <;> rfl
  · intro M1 M2
    cases M1 <;> cases M2 <;> cases R <;> rfl
  · intro h
    simp only at h
    subst h
    cases M <;> exact List.prefix_append _ _

/-- C10 (witness).  With the rewriter `keepLastTwo` and the modifier
`preambleModifier` on a history of two messages and one incoming message: the
stored history is the last two messages, the model is handed the preamble
followed by them, and the nil entries the modifier writes are in the copy. -/
theorem C10_model_pre_handle_witness :
    (modelPreHandle ⟨some preambleModifier, some keepLastTwo, GoMap.empty⟩
        [some ⟨"user", "q2", [], ""⟩] twoMessageState).state.Messages =
      [some ⟨"assistant", "a1", [], ""⟩, some ⟨"user", "q2", [], ""⟩] ∧
    (modelPreHandle ⟨some preambleModifier, some keepLastTwo, GoMap.empty⟩
        [some ⟨"user", "q2", [], ""⟩] twoMessageState).modifiedInput = some [none, none] ∧
    twoMessageState.Messages <+: (modelPreHandle ⟨some preambleModifier, none, GoMap.empty⟩
        [some ⟨"user", "q2", [], ""⟩] twoMessageState).state.Messages :=
  ⟨by decide,
    (C10_model_pre_handle ⟨some preambleModifier, some keepLastTwo, GoMap.empty⟩
      [some ⟨"user", "q2", [], ""⟩] twoMessageState).2.2.2.2.2.1 preambleModifier rfl,
    (C10_model_pre_handle ⟨some preambleModifier, none, GoMap.empty⟩
      [some ⟨"user", "q2", [], ""⟩] twoMessageState).2.2.2.2.2.2.2 rfl⟩

/-! ## Tools of the catalog have passed `Info` -/

theorem GoMap.find_mem {α : Type} {l : List (String × α)} {k : String} {v : α}
    (h : GoMap.find l k = some v) : (k, v) ∈ l := by
  induction l with
  | nil => simp [GoMap.find] at h
  | cons p l ih =>
    obtain ⟨k1, v1⟩ := p
    by_cases hk : k1 = k
    · simp only [GoMap.find, hk, if_true, Option.some.injEq] at h
      rw [hk, h]
      exact List.mem_cons_self _ _
    · simp only [GoMap.find, hk, if_false] at h
      exact List.mem_cons_of_mem _ (ih h)

theorem GoMap.mem_of_mem_erase {α : Type} {l : List (String × α)} {k : String}
    {p : String × α} (h : p ∈ GoMap.erase l k) : p ∈ l := by
  induction l with
  | nil => simp [GoMap.erase] at h
  | cons q l ih =>
    obtain ⟨k1, v1⟩ := q
    by_cases hk : k1 = k
    · simp only [GoMap.erase, hk, if_true] at h
      exact List.mem_cons_of_mem _ (ih h)
    · simp only [GoMap.erase, hk, if_false] at h
      rcases List.mem_cons.mp h with h | h
      · rw [h]; exact List.mem_cons_self _ _
      · exact List.mem_cons_of_mem _ (ih h)

theorem GoMap.mem_entries_set {α : Type} {m : GoMap α} {k : String} {v : α}
    {p : String × α} (h : p ∈ (m.set k v).entries) : p ∈ m.entries ∨ p = (k, v) := by
  simp only [GoMap.set, GoMap.delete, List.mem_append, List.mem_singleton] at h
  rcases h with h | h
  · exact Or.inl (GoMap.mem_of_mem_erase h)
  · exact Or.inr h

theorem toolsToMapLoop_infoOk (tools : List BaseTool) (m tm : GoMap BaseTool)
    (hm : ∀ p ∈ m.entries, p.2.infoOk) (h : toolsToMapLoop tools m = .ok tm) :
    ∀ p ∈ tm.entries, p.2.infoOk := by
  induction tools generalizing m with
  | nil =>
    simp only [toolsToMapLoop, Except.ok.injEq] at h
    subst h; exact hm
  | cons tool rest ih =>
    cases hi : tool.Info with
    | error err => simp [toolsToMapLoop, hi] at h
    | ok info =>
      simp only [toolsToMapLoop, hi] at h
      refine ih _ ?_ h
      intro p hp
      rcases GoMap.mem_entries_set hp with hp | hp
      · exact hm p hp
      · rw [hp]; exact ⟨info, hi⟩

theorem toolsToMap_infoOk {tools : List BaseTool} {tm : GoMap BaseTool}
    (h : toolsToMap tools = .ok tm) : ∀ p ∈ tm.entries, p.2.infoOk :=
  toolsToMapLoop_infoOk tools GoMap.empty tm
    (fun p hp => absurd hp (List.not_mem_nil p)) h

theorem appendInfos_ok (tools : List BaseTool) (infos : List (Option ToolInfo))
    (h : ∀ t ∈ tools, t.infoOk) : ∃ out, appendInfos tools infos = .ok out := by
  induction tools generalizing infos with
  | nil => exact ⟨infos, rfl⟩
  | cons t rest ih =>
    obtain ⟨info, hi⟩ := h t (List.mem_cons_self _ _)
    simp only [appendInfos, hi]
    exact ih _ (fun x hx => h x (List.mem_cons_of_mem _ hx))

theorem infoOk_NewToolList {tools : List BaseTool} {w0 : World}
    (h : NewToolList tools = .ok w0) : InfoOk w0 := by
  unfold NewToolList at h
  rcases toolsToMap_cases tools with ⟨err, he⟩ | ⟨tm, he⟩
  · simp [he] at h
  · simp [he, Heap.alloc, Heap.init, Heap.write] at h
    subst h
    refine ⟨?_, fun t ht => absurd ht (List.not_mem_nil t)⟩
    intro r p hp
    by_cases hr : r = 0
    · simp only [hr, if_true] at hp
      rcases GoMap.mem_entries_set hp with hp | hp
      · exact toolsToMap_infoOk he p hp
      · rw [hp]; exact ⟨_, rfl⟩
    · simp only [hr, if_false] at hp
      exact absurd hp (List.not_mem_nil p)

theorem infoOk_Init {w : World} (h : InfoOk w) : InfoOk (Init w) := by
  refine ⟨h.1, ?_⟩
  intro t ht
  simp only [Init, MapToSlice, GoMap.values, List.mem_map] at ht
  obtain ⟨p, hp, rfl⟩ := ht
  exact h.1 _ p hp

theorem infoOk_alloc {w : World} (h : InfoOk w) {tm : GoMap BaseTool}
    (htm : ∀ p ∈ tm.entries, p.2.infoOk) :
    ∀ r, ∀ p ∈ ((w.heap.alloc tm).2.cell r).entries, p.2.infoOk := by
  intro r p hp
  simp only [Heap.alloc] at hp
  by_cases hr : r = w.heap.next
  · simp only [hr, if_true] at hp
    exact htm p hp
  · simp only [hr, if_false] at hp
    exact h.1 r p hp

theorem infoOk_SetExtraTools {w : World} (h : InfoOk w) (tools : List BaseTool) :
    InfoOk (SetExtraTools w tools).2 := by
  unfold SetExtraTools
  rcases toolsToMap_cases tools with ⟨err, he⟩ | ⟨tm, he⟩
  · simpa [he] using h
  · simp only [he]
    exact ⟨infoOk_alloc h (toolsToMap_infoOk he), h.2⟩

theorem infoOk_WithTools {w : World} (h : InfoOk w) (tools : List BaseTool) :
    InfoOk (WithTools w tools).2 := by
  unfold WithTools
  rcases toolsToMap_cases tools with ⟨err, he⟩ | ⟨tm, he⟩
  · simpa [he] using h
  · simp only [he]
    exact ⟨infoOk_alloc h (toolsToMap_infoOk he), h.2⟩

theorem infoOk_apply {w : World} (h : InfoOk w) (o : AgentOption) :
    InfoOk (o.apply w).2 := by
  rw [apply_world]
  exact h

theorem infoOk_write {h : Heap} {r0 : Ref} {m : GoMap BaseTool}
    (hh : ∀ r, ∀ p ∈ (h.cell r).entries, p.2.infoOk) (hm : ∀ p ∈ m.entries, p.2.infoOk) :
    ∀ r, ∀ p ∈ ((h.write r0 m).cell r).entries, p.2.infoOk := by
  intro r p hp
  simp only [Heap.write] at hp
  by_cases hr : r = r0
  · simp only [hr, if_true] at hp
    exact hm p hp
  · simp only [hr, if_false] at hp
    exact hh r p hp

theorem infoOk_GetToolByName {w w1 : World} {n : String} {r : Option BaseTool × Bool}
    (hw : InfoOk w) (h : GetToolByName w n = some (r, w1)) : InfoOk w1 := by
  cases hv : (visibleMap w).get n with
  | some tool =>
    rw [GetToolByName_visible hv] at h
    simp only [Option.some.injEq, Prod.mk.injEq] at h
    obtain ⟨_, rfl⟩ := h
    exact hw
  | none =>
    cases he : (extraMap w).get n with
    | none =>
      rw [GetToolByName_absent hv he] at h
      simp only [Option.some.injEq, Prod.mk.injEq] at h
      obtain ⟨_, rfl⟩ := h
      exact hw
    | some tool =>
      cases ha : w.toolList.aliveToolsMap with
      | none => rw [GetToolByName_panic ha he] at h; exact absurd h (by simp)
      | some a =>
        cases hx : w.toolList.extraToolsMap with
        | none => simp [extraMap, hx, GoMap.get_empty] at he
        | some e =>
          have he2 : (w.heap.cell e).get n = some tool := by simpa [extraMap, hx] using he
          rw [GetToolByName_reveal hv ha hx he2] at h
          simp only [Option.some.injEq, Prod.mk.injEq] at h
          obtain ⟨_, rfl⟩ := h
          have htool : tool.infoOk := hw.1 e (n, tool) (GoMap.find_mem he2)
          have h1 : ∀ r, ∀ p ∈ ((w.heap.write e ((w.heap.cell e).delete n)).cell r).entries,
              p.2.infoOk :=
            infoOk_write hw.1 (fun p hp => hw.1 e p (GoMap.mem_of_mem_erase hp))
          refine ⟨infoOk_write h1 ?_, ?_⟩
          · intro p hp
            rcases GoMap.mem_entries_set hp with hp | hp
            · exact h1 a p hp
            · rw [hp]; exact htool
          · intro t ht
            rcases List.mem_append.mp ht with ht | ht
            · exact hw.2 t ht
            · rw [List.mem_singleton.mp ht]; exact htool

theorem infoOk_step {w w1 : World} {op : Op} (hw : InfoOk w)
    (h : step w op = some w1) : InfoOk w1 := by
  cases op with
  | Init =>
    simp only [step, Option.some.injEq] at h
    subst h; exact infoOk_Init hw
  | SetExtraTools tools =>
    simp only [step, Option.some.injEq] at h
    subst h; exact infoOk_SetExtraTools hw tools
  | WithTools tools =>
    simp only [step, Option.some.injEq] at h
    subst h; exact infoOk_WithTools hw tools
  | applyOption i =>
    simp only [step] at h
    cases ho : w.options[i]? with
    | none =>
      rw [ho] at h
      simp only [Option.some.injEq] at h
      subst h; exact hw
    | some o =>
      rw [ho] at h
      simp only [Option.some.injEq] at h
      subst h
      exact infoOk_apply hw o
  | GetToolByName name =>
    simp only [step] at h
    cases hg : GetToolByName w name with
    | none => rw [hg] at h; exact absurd h (by simp)
    | some p =>
      obtain ⟨r, w2⟩ := p
      rw [hg] at h
      simp only [Option.map_some', Option.some.injEq] at h
      subst h
      exact infoOk_GetToolByName hw hg

theorem infoOk_run {ops : List Op} {w w1 : World} (hw : InfoOk w)
    (h : run w ops = some w1) : InfoOk w1 := by
  induction ops generalizing w with
  | nil =>
    simp only [run, Option.some.injEq] at h
    subst h; exact hw
  | cons op ops ih =>
    simp only [run] at h
    cases hs : step w op with
    | none => rw [hs] at h; exact absurd h (by simp)
    | some w2 =>
      rw [hs] at h
      exact ih (infoOk_step hw hs) h

theorem Reachable.infoOk {w : World} (h : Reachable w) : InfoOk w := by
  obtain ⟨tools, w0, ops, h0, hr⟩ := h
  exact infoOk_run (infoOk_NewToolList h0) hr

/-! ## Failure of the reveal tool -/

theorem specialToolInvoke_absent {M : Type} (I : ToolCallingChatModel M) {w : World}
    (l : LearnModel M) {n : String}
    (hv : (visibleMap w).get n = none) (he : (extraMap w).get n = none) :
    specialToolInvoke I w l n = some (.error (notExistError n), w, l) := by
  unfold specialToolInvoke
  rw [GetToolByName_absent hv he]
  rfl

theorem specialToolInvoke_found {M : Type} (I : ToolCallingChatModel M) {w w1 : World}
    (l : LearnModel M) {n : String} {t : Option BaseTool} {infos : List (Option ToolInfo)}
    (hg : GetToolByName w n = some ((t, true), w1))
    (hi : appendInfos (GetTools w1) (List.replicate (GetTools w1).length none) = .ok infos) :
    (∀ e, I.WithTools l.originalChatModel infos = .error e →
      specialToolInvoke I w l n = some (.error e, w1, l)) ∧
    (∀ m, I.WithTools l.originalChatModel infos = .ok m →
      specialToolInvoke I w l n =
        some (.ok ("get tool " ++ n ++ " success"), w1,
          { tChatModel := m, originalChatModel := l.originalChatModel })) := by
  constructor
  · intro e hb
    unfold specialToolInvoke
    rw [hg]
    simp only [hi, LearnModel.WithTools, hb]
  · intro m hb
    unfold specialToolInvoke
    rw [hg]
    simp only [hi, LearnModel.WithTools, hb]

/-- The lookup of a name that is a key of the visible map or of the extra
map, on a catalog on which `Init` has run: found, with no panic. -/
theorem GetToolByName_present {w : World} {n : String}
    (hinit : w.toolList.aliveToolsMap ≠ none)
    (h : ¬ ((visibleMap w).get n = none ∧ (extraMap w).get n = none)) :
    ∃ tool w1, GetToolByName w n = some ((some tool, true), w1) := by
  cases hv : (visibleMap w).get n with
  | some tool => exact ⟨tool, w, GetToolByName_visible hv⟩
  | none =>
    cases he : (extraMap w).get n with
    | none => exact absurd ⟨hv, he⟩ h
    | some tool =>
      cases ha : w.toolList.aliveToolsMap with
      | none => exact absurd ha hinit
      | some a =>
        cases hx : w.toolList.extraToolsMap with
        | none => simp [extraMap, hx, GoMap.get_empty] at he
        | some e =>
          have he2 : (w.heap.cell e).get n = some tool := by simpa [extraMap, hx] using he
          exact ⟨tool, _, GetToolByName_reveal hv ha hx he2⟩

/-- C11.  Reveal failure is a clean error.  On a reachable catalog on which
`Init` has run, with any model adapter: when the name is a key of neither the
visible map nor the extra map, the reveal tool returns the error
`tool <name> is not exist`, the catalog (visible map, visible sequence, extra
map) is what it was, and the adapter is what it was whatever the wrapped
model does on `WithTools`, so `WithTools` is not called.  When the name is a
key of one of the two maps, `GetToolByName` finds it and the reveal tool
returns the success message or the error that the model returns on
`WithTools`.  Hence, for a model that does not itself return that error, the
reveal tool returns `tool <name> is not exist` exactly when the name is a key
of neither map. -/
theorem C11_reveal_failure {M : Type} (I : ToolCallingChatModel M) (w : World)
    (l : LearnModel M) (n : String) (hr : Reachable w)
    (hinit : w.toolList.aliveToolsMap ≠ none) :
    (((visibleMap w).get n = none ∧ (extraMap w).get n = none) →
      ∀ (J : ToolCallingChatModel M),
        specialToolInvoke J w l n = some (.error (notExistError n), w, l)) ∧
    (¬ ((visibleMap w).get n = none ∧ (extraMap w).get n = none) →
      ∃ tool w1 infos, GetToolByName w n = some ((some tool, true), w1) ∧
        (∀ e, I.WithTools l.originalChatModel infos = .error e →
          specialToolInvoke I w l n = some (.error e, w1, l)) ∧
        (∀ m, I.WithTools l.originalChatModel infos = .ok m →
          specialToolInvoke I w l n =
            some (.ok ("get tool " ++ n ++ " success"), w1,
              { tChatModel := m, originalChatModel := l.originalChatModel }))) ∧
    ((∀ infos, I.WithTools l.originalChatModel infos ≠ .error (notExistError n)) →
      ((∃ w1 l1, specialToolInvoke I w l n = some (.error (notExistError n), w1, l1)) ↔
        ((visibleMap w).get n = none ∧ (extraMap w).get n = none))) := by
  have hpresent : ¬ ((visibleMap w).get n = none ∧ (extraMap w).get n = none) →
      ∃ tool w1 infos, GetToolByName w n = some ((some tool, true), w1) ∧
        (∀ e, I.WithTools l.originalChatModel infos = .error e →
          specialToolInvoke I w l n = some (.error e, w1, l)) ∧
        (∀ m, I.WithTools l.originalChatModel infos = .ok m →
          specialToolInvoke I w l n =
            some (.ok ("get tool " ++ n ++ " success"), w1,
              { tChatModel := m, originalChatModel := l.originalChatModel })) := by
    intro h
    obtain ⟨tool, w1, hg⟩ := GetToolByName_present hinit h
    have hok : InfoOk w1 := infoOk_GetToolByName hr.infoOk hg
    obtain ⟨infos, hi⟩ :=
      appendInfos_ok (GetTools w1) (List.replicate (GetTools w1).length none) hok.2
    exact ⟨tool, w1, infos, hg, specialToolInvoke_found I l hg hi⟩
  refine ⟨?_, hpresent, ?_⟩
  · intro h J
    exact specialToolInvoke_absent J l h.1 h.2
  · intro hmodel
    constructor
    · rintro ⟨w1, l1, hres⟩
      by_contra hne
      obtain ⟨tool, w2, infos, _, herr, hsucc⟩ := hpresent hne
      cases hb : I.WithTools l.originalChatModel infos with
      | error e =>
        rw [herr e hb] at hres
        simp only [Option.some.injEq, Prod.mk.injEq, Except.error.injEq] at hres
        exact hmodel infos (hres.1 ▸ hb)
      | ok m =>
        rw [hsucc m hb] at hres
        simp at hres
    · intro h
      exact ⟨w, l, specialToolInvoke_absent I l h.1 h.2⟩

/-- C11 (witness).  On the catalog with no configured tool and the extra
tool `x`, the reveal of the unknown name `y` returns the error
`tool y is not exist` and leaves the catalog and the adapter as they were,
with a wrapped model that would record any `WithTools` call. -/
theorem C11_reveal_failure_witness :
    (visibleMap catalogWithExtraX).get "y" = none ∧
    (extraMap catalogWithExtraX).get "y" = none ∧
    specialToolInvoke recordingModel catalogWithExtraX (NewLearnModel []) "y" =
      some (.error (.errorf "tool y is not exist"), catalogWithExtraX, NewLearnModel []) :=
  ⟨by decide, by decide,
    (C11_reveal_failure recordingModel catalogWithExtraX (NewLearnModel []) "y"
      ⟨[], _, [.Init, .SetExtraTools [toolX]], rfl, rfl⟩ (by decide)).1
      ⟨by decide, by decide⟩ recordingModel⟩

/-! ## `NormalStop` -/

/-- What `NormalStop` computes: true exactly for a non-nil error, which it
then stores in `io.EOF`; a nil error changes nothing. -/
theorem NormalStop_eq (vars : ErrVars) (err : Option GoError) :
    NormalStop vars err =
      match err with
      | none => (false, vars)
      | some e => (true, { vars with EOF := e }) := by
  cases err <;> rfl

/-- C12 (defect of the code).  `NormalStop` on the error of
`errors.New("boom")`, which neither is nor wraps `io.EOF` or `StopRunErr`,
returns true, and afterwards the variable `io.EOF` holds that error:
`errors.As` with a target of type `*error` matches every non-nil error and
stores it through the target. -/
theorem C12_NormalStop_accepts_unrelated_error :
    boomError.isOrWraps ErrVars.init.EOF = false ∧
    boomError.isOrWraps ErrVars.init.StopRunErr = false ∧
    NormalStop ErrVars.init (some boomError) =
      (true, { EOF := boomError, StopRunErr := ErrVars.init.StopRunErr }) ∧
    (NormalStop ErrVars.init (some boomError)).2.EOF ≠ ErrVars.init.EOF ∧
    NormalStop ErrVars.init none = (false, ErrVars.init) :=
  ⟨by decide, by decide, by decide, by decide, by decide⟩

end TEino
